import Mathlib

/-!
Shallow embedding of `src/lib/confparse.cc` (Click's configuration-string
parsing library).  Strings are modelled as lists of byte values
(`List Nat`, each element a byte 0..255); C array indexing `s[i]` becomes
`s.getD i 0`.  C loops over an index are modelled as fuel-consuming
structural recursions; every wrapper supplies fuel that exceeds the
number of iterations the C loop can make (each iteration strictly
advances the index, so `s.length + 2` always suffices), which keeps all
definitions kernel-computable.
-/

namespace Confparse

/-- Byte values of an ASCII string literal, used to state concrete examples. -/
def bytes (s : String) : List Nat :=
  s.data.map (fun c => c.toNat)

/-- C `isspace` on a byte: space, \t, \n, \v, \f, \r. -/
def cIsSpace (c : Nat) : Bool :=
  c == 32 || (9 ≤ c && c ≤ 13)

/-- C `isdigit` on a byte. -/
def cIsDigit (c : Nat) : Bool :=
  48 ≤ c && c ≤ 57

/-- C `isalnum` on a byte (ASCII letters and digits). -/
def cIsAlnum (c : Nat) : Bool :=
  cIsDigit c || (65 ≤ c && c ≤ 90) || (97 ≤ c && c ≤ 122)

/-- C `isxdigit` on a byte. -/
def cIsXdigit (c : Nat) : Bool :=
  cIsDigit c || (65 ≤ c && c ≤ 70) || (97 ≤ c && c ≤ 102)

/-- Value of a hexadecimal digit (`xvalue` in the source).  The source
returns -1 on a non-digit; every call site guards with `isxdigit`, so the
out-of-range branch returns 0 here. -/
def xvalue (c : Nat) : Nat :=
  if 48 ≤ c && c ≤ 57 then c - 48
  else if 65 ≤ c && c ≤ 70 then c - 65 + 10
  else if 97 ≤ c && c ≤ 102 then c - 97 + 10
  else 0

/-- Click `String::substring(pos, n)`: `n` bytes starting at `pos`. -/
def substr (s : List Nat) (pos n : Nat) : List Nat :=
  (s.drop pos).take n

/-- Whether `s` has a comment opener (`//` or `/*`) at index `i`, with the
source's `i < len - 1` bound. -/
def comment_at (s : List Nat) (i : Nat) : Bool :=
  s.getD i 0 == 47 && i < s.length - 1 &&
    (s.getD (i + 1) 0 == 47 || s.getD (i + 1) 0 == 42)

/-- Loop of `skip_comment` for a `//` comment: advance while before
end-of-line. -/
def skip_line_comment_loop (s : List Nat) : Nat → Nat → Nat
  | 0, pos => pos
  | fuel + 1, pos =>
    if pos < s.length - 1 && !(s.getD pos 0 == 10) && !(s.getD pos 0 == 13) then
      skip_line_comment_loop s fuel (pos + 1)
    else pos

/-- Loop of `skip_comment` for a `/* ... */` comment: advance until `*` `/`. -/
def skip_block_comment_loop (s : List Nat) : Nat → Nat → Nat
  | 0, pos => pos
  | fuel + 1, pos =>
    if pos < s.length - 2 && !(s.getD pos 0 == 42 && s.getD (pos + 1) 0 == 47) then
      skip_block_comment_loop s fuel (pos + 1)
    else pos

/-- `skip_comment`: `pos` points at `//` or `/*`; result is the index just
past the comment. -/
def skip_comment (s : List Nat) (pos : Nat) : Nat :=
  if s.getD (pos + 1) 0 == 47 then
    let p := skip_line_comment_loop s (s.length + 1) (pos + 2)
    let p := if p < s.length - 1 && s.getD p 0 == 13 && s.getD (p + 1) 0 == 10 then p + 1 else p
    p + 1
  else
    skip_block_comment_loop s (s.length + 1) (pos + 2) + 2

/-- Loop of `skip_backslash_angle`: scan for the closing `>`, skipping
comments. -/
def skip_backslash_angle_loop (s : List Nat) : Nat → Nat → Nat
  | 0, pos => pos
  | fuel + 1, pos =>
    if pos < s.length then
      if s.getD pos 0 == 62 then pos + 1
      else if comment_at s pos then
        skip_backslash_angle_loop s fuel (skip_comment s pos)
      else
        skip_backslash_angle_loop s fuel (pos + 1)
    else s.length

/-- `skip_backslash_angle`: `pos` points at `\<`; result is just past the
matching `>`, or the length if unterminated. -/
def skip_backslash_angle (s : List Nat) (pos : Nat) : Nat :=
  skip_backslash_angle_loop s (s.length + 1) (pos + 2)

/-- Loop of `skip_double_quote`. -/
def skip_double_quote_loop (s : List Nat) : Nat → Nat → Nat
  | 0, pos => pos
  | fuel + 1, pos =>
    if pos < s.length then
      if pos < s.length - 1 && s.getD pos 0 == 92 then
        if s.getD (pos + 1) 0 == 60 then
          skip_double_quote_loop s fuel (skip_backslash_angle s pos)
        else
          skip_double_quote_loop s fuel (pos + 2)
      else if s.getD pos 0 == 34 then pos + 1
      else skip_double_quote_loop s fuel (pos + 1)
    else s.length

/-- `skip_double_quote`: `pos` points at `"`; result is just past the
closing quote, or the length if unterminated. -/
def skip_double_quote (s : List Nat) (pos : Nat) : Nat :=
  skip_double_quote_loop s (s.length + 1) (pos + 1)

/-- Loop of `skip_single_quote`. -/
def skip_single_quote_loop (s : List Nat) : Nat → Nat → Nat
  | 0, pos => pos
  | fuel + 1, pos =>
    if pos < s.length then
      if s.getD pos 0 == 39 then pos + 1
      else skip_single_quote_loop s fuel (pos + 1)
    else s.length

/-- `skip_single_quote`: `pos` points at `'`; result is just past the
closing quote, or the length if unterminated. -/
def skip_single_quote (s : List Nat) (pos : Nat) : Nat :=
  skip_single_quote_loop s (s.length + 1) (pos + 1)

/-- First loop of `partial_uncomment`: skip initial whitespace and
comments. -/
def puc_skip_initial (s : List Nat) : Nat → Nat → Nat
  | 0, i => i
  | fuel + 1, i =>
    if i < s.length then
      if comment_at s i then puc_skip_initial s fuel (skip_comment s i)
      else if cIsSpace (s.getD i 0) then puc_skip_initial s fuel (i + 1)
      else i
    else i

/-- Main loop of `partial_uncomment`: accumulate text while skipping
comments; stop at a top-level comma when `comma` is set.  State carries
the scan index `i`, the pending-substring bounds `left`/`right`, the
`closed` flag (a comment was just skipped) and the accumulator `sa`.
Returns the built string and the final index (the source's
`*comma_pos`). -/
def puc_loop (s : List Nat) (comma : Bool) :
    Nat → Nat → Nat → Nat → Bool → List Nat → List Nat × Nat
  | 0, i, left, right, _, sa => (sa ++ substr s left (right - left), i)
  | fuel + 1, i, left, right, closed, sa =>
    if i < s.length then
      if cIsSpace (s.getD i 0) then
        puc_loop s comma fuel (i + 1) left right closed sa
      else if comment_at s i then
        puc_loop s comma fuel (skip_comment s i) left right true sa
      else if s.getD i 0 == 44 && comma then
        (sa ++ substr s left (right - left), i)
      else
        let sa' := if closed then sa ++ substr s left (right - left) ++ [32] else sa
        let left' := if closed then i else left
        let j :=
          if s.getD i 0 == 39 then skip_single_quote s i
          else if s.getD i 0 == 34 then skip_double_quote s i
          else if s.getD i 0 == 92 && i < s.length - 1 && s.getD (i + 1) 0 == 60 then
            skip_backslash_angle s i
          else i + 1
        puc_loop s comma fuel j left' j false sa'
    else (sa ++ substr s left (right - left), i)

/-- `partial_uncomment(str, i, comma_pos)`: comment-stripped,
space-trimmed text starting at `i`, stopping at a top-level comma when
`comma` is set (the source passes a null/non-null `comma_pos` pointer).
Returns the text and the final index. -/
def partial_uncomment (s : List Nat) (i0 : Nat) (comma : Bool) : List Nat × Nat :=
  let i := puc_skip_initial s (s.length + 1) i0
  puc_loop s comma (s.length + 1) i i i false []

/-- `cp_uncomment`. -/
def cp_uncomment (s : List Nat) : List Nat :=
  (partial_uncomment s 0 false).1

/-- Loop of `cp_argvec`: one `partial_uncomment` per top-level
comma-separated field. -/
def cp_argvec_loop (s : List Nat) : Nat → Nat → Bool → List (List Nat) → List (List Nat)
  | 0, _, _, args => args
  | fuel + 1, i, first_arg, args =>
    if i ≤ s.length then
      let p := partial_uncomment s i true
      let args' := if !(p.1 == []) || p.2 < s.length || !first_arg then args ++ [p.1] else args
      cp_argvec_loop s fuel (p.2 + 1) false args'
    else args

/-- `cp_argvec`: split a configuration string on top-level commas. -/
def cp_argvec (s : List Nat) : List (List Nat) :=
  if s.length == 0 then [] else cp_argvec_loop s (s.length + 2) 0 true []

/-- `cp_is_word`: non-empty, and no quote, comma, or byte outside 33..126. -/
def cp_is_word (s : List Nat) : Bool :=
  s.all (fun c => !(c == 34 || c == 39 || c == 44 || c ≤ 32 || 127 ≤ c)) && s.length > 0

/-- Octal-digit loop of `process_backslash` (at most 3 digits, which the
`d < 3` bound enforces in the source). -/
def pb_octal_loop (s : List Nat) : Nat → Nat → Nat → Nat × Nat
  | 0, i, c => (i, c)
  | fuel + 1, i, c =>
    if i < s.length && 48 ≤ s.getD i 0 && s.getD i 0 ≤ 55 then
      pb_octal_loop s fuel (i + 1) (c * 8 + (s.getD i 0 - 48))
    else (i, c)

/-- Hex-digit loop of the `\x` case of `process_backslash`.  The source
accumulates into a C `int`; the truncation to one byte happens at the
`(char)` cast on emission, modelled by `% 256` in `process_backslash`. -/
def pb_hex_loop (s : List Nat) : Nat → Nat → Nat → Nat × Nat
  | 0, i, c => (i, c)
  | fuel + 1, i, c =>
    let ch := s.getD i 0
    if i < s.length && (48 ≤ ch && ch ≤ 57) then pb_hex_loop s fuel (i + 1) (c * 16 + (ch - 48))
    else if i < s.length && (65 ≤ ch && ch ≤ 70) then pb_hex_loop s fuel (i + 1) (c * 16 + (ch - 65 + 10))
    else if i < s.length && (97 ≤ ch && ch ≤ 102) then pb_hex_loop s fuel (i + 1) (c * 16 + (ch - 97 + 10))
    else (i, c)

/-- Loop of the `\<...>` case of `process_backslash`: whitespace-tolerant
hex pairs, comments skipped, one byte out per two digits.  Returns the
index after the closing `>` (or the length) and the emitted bytes. -/
def pb_angle_loop (s : List Nat) : Nat → Nat → Nat → Nat → List Nat → Nat × List Nat
  | 0, i, _, _, out => (i, out)
  | fuel + 1, i, c, d, out =>
    if i < s.length then
      let ch := s.getD i 0
      if ch == 62 then (i + 1, out)
      else
        match (if 48 ≤ ch && ch ≤ 57 then some (ch - 48)
          else if 65 ≤ ch && ch ≤ 70 then some (ch - 65 + 10)
          else if 97 ≤ ch && ch ≤ 102 then some (ch - 97 + 10)
          else none) with
        | some v =>
          let c' := c * 16 + v
          if d + 1 == 2 then pb_angle_loop s fuel (i + 1) 0 0 (out ++ [c'])
          else pb_angle_loop s fuel (i + 1) c' (d + 1) out
        | none =>
          if ch == 47 && i < s.length - 1 &&
              (s.getD (i + 1) 0 == 47 || s.getD (i + 1) 0 == 42) then
            pb_angle_loop s fuel (skip_comment s i) c d out
          else pb_angle_loop s fuel (i + 1) c d out
    else (s.length, out)

/-- `process_backslash`: decode one backslash escape starting at `i`
(where `s[i]` is the backslash); return the next index and the bytes
appended to the accumulator. -/
def process_backslash (s : List Nat) (i : Nat) : Nat × List Nat :=
  let c := s.getD (i + 1) 0
  if c == 13 then (if i < s.length - 2 && s.getD (i + 2) 0 == 10 then (i + 3, []) else (i + 2, []))
  else if c == 10 then (i + 2, [])
  else if c == 97 then (i + 2, [7])
  else if c == 98 then (i + 2, [8])
  else if c == 102 then (i + 2, [12])
  else if c == 110 then (i + 2, [10])
  else if c == 114 then (i + 2, [13])
  else if c == 116 then (i + 2, [9])
  else if c == 118 then (i + 2, [11])
  else if 48 ≤ c && c ≤ 55 then
    let p := pb_octal_loop s 3 (i + 1) 0
    (p.1, [p.2 % 256])
  else if c == 120 then
    let p := pb_hex_loop s (s.length + 1) (i + 2) 0
    (p.1, [p.2 % 256])
  else if c == 60 then
    pb_angle_loop s (s.length + 1) (i + 2) 0 0 []
  else (i + 2, [c])

/-- Scan loop of `cp_unquote`: walk the uncommented string, toggling the
quote state and decoding backslash escapes.  Returns the final index,
`start` and accumulator. -/
def unquote_loop (s : List Nat) : Nat → Nat → Nat → Nat → List Nat → Nat × Nat × List Nat
  | 0, i, start, _, sa => (i, start, sa)
  | fuel + 1, i, start, qstate, sa =>
    if i < s.length then
      let c := s.getD i 0
      if c == 34 || c == 39 then
        if qstate == 0 then
          unquote_loop s fuel (i + 1) (i + 1) c
            (if start < i then sa ++ substr s start (i - start) else sa)
        else if qstate == c then
          unquote_loop s fuel (i + 1) (i + 1) 0
            (if start < i then sa ++ substr s start (i - start) else sa)
        else unquote_loop s fuel (i + 1) start qstate sa
      else if c == 92 && i < s.length - 1 &&
          (qstate == 34 || (qstate == 0 && s.getD (i + 1) 0 == 60)) then
        let p := process_backslash s i
        unquote_loop s fuel p.1 p.1 qstate (sa ++ substr s start (i - start) ++ p.2)
      else unquote_loop s fuel (i + 1) start qstate sa
    else (i, start, sa)

/-- `cp_unquote`: strip comments, then remove quotes and decode escapes. -/
def cp_unquote (in_str : List Nat) : List Nat :=
  let str := (partial_uncomment in_str 0 false).1
  let r := unquote_loop str (str.length + 1) 0 0 0 []
  if r.2.1 == 0 then str else r.2.2 ++ substr str r.2.1 (r.1 - r.2.1)

/-- Loop of `cp_quote`: escape backslash, double quote and dollar, encode
tab, CR (and newline unless `allow_newlines`) as two-character escapes,
and non-printable bytes as three-digit octal escapes. -/
def quote_loop (s : List Nat) (allow_newlines : Bool) :
    Nat → Nat → Nat → List Nat → List Nat
  | 0, i, start, sa => sa ++ substr s start (i - start) ++ [34]
  | fuel + 1, i, start, sa =>
    if i < s.length then
      let c := s.getD i 0
      if c == 92 || c == 34 || c == 36 then
        quote_loop s allow_newlines fuel (i + 1) (i + 1) (sa ++ substr s start (i - start) ++ [92, c])
      else if c == 9 then
        quote_loop s allow_newlines fuel (i + 1) (i + 1) (sa ++ substr s start (i - start) ++ [92, 116])
      else if c == 13 then
        quote_loop s allow_newlines fuel (i + 1) (i + 1) (sa ++ substr s start (i - start) ++ [92, 114])
      else if c == 10 then
        if !allow_newlines then
          quote_loop s allow_newlines fuel (i + 1) (i + 1) (sa ++ substr s start (i - start) ++ [92, 110])
        else quote_loop s allow_newlines fuel (i + 1) start sa
      else if c < 32 || 127 ≤ c then
        quote_loop s allow_newlines fuel (i + 1) (i + 1)
          (sa ++ substr s start (i - start) ++ [92, 48 + c / 64, 48 + c / 8 % 8, 48 + c % 8])
      else quote_loop s allow_newlines fuel (i + 1) start sa
    else sa ++ substr s start (i - start) ++ [34]

/-- `cp_quote`: wrap in double quotes, escaping as needed; the empty
string maps to the two-character empty quoted string. -/
def cp_quote (s : List Nat) (allow_newlines : Bool) : List Nat :=
  if s.length == 0 then [34, 34]
  else 34 :: quote_loop s allow_newlines (s.length + 1) 0 0 []

/-- Structural description of `cp_quote`'s per-byte encoding (newlines
escaped, i.e. `allow_newlines = false`), used to reason about the
quote/unquote round trip. -/
def qenc1 (c : Nat) : List Nat :=
  if c == 92 || c == 34 || c == 36 then [92, c]
  else if c == 9 then [92, 116]
  else if c == 13 then [92, 114]
  else if c == 10 then [92, 110]
  else if c < 32 || 127 ≤ c then [92, 48 + c / 64, 48 + c / 8 % 8, 48 + c % 8]
  else [c]

/-- Concatenated per-byte encoding of a whole string. -/
def qenc : List Nat → List Nat
  | [] => []
  | c :: s => qenc1 c ++ qenc s

/-- Scan loop of `cp_keyword`: accept alphanumerics and `_` `.` `:`, stop
at whitespace (returning the stop index), fail on anything else. -/
def cp_keyword_scan (s : List Nat) : Nat → Nat → Option Nat
  | 0, i => some i
  | fuel + 1, i =>
    if i < s.length then
      let c := s.getD i 0
      if cIsSpace c then some i
      else if c == 95 || c == 46 || c == 58 then cp_keyword_scan s fuel (i + 1)
      else if cIsAlnum c then cp_keyword_scan s fuel (i + 1)
      else none
    else some i

/-- Whitespace-skipping loop used for the `rest` output of `cp_keyword`. -/
def skip_spaces (s : List Nat) : Nat → Nat → Nat
  | 0, i => i
  | fuel + 1, i =>
    if i < s.length && cIsSpace (s.getD i 0) then skip_spaces s fuel (i + 1)
    else i

/-- `cp_keyword` with a non-null `rest` pointer (as the binding engine
calls it): the keyword and the remainder after skipping the separating
whitespace. -/
def cp_keyword (s : List Nat) : Option (List Nat × List Nat) :=
  match cp_keyword_scan s (s.length + 1) 0 with
  | none => none
  | some i =>
    if i == 0 then none
    else
      let j := skip_spaces s (s.length + 1) i
      some (substr s 0 i, substr s j (s.length - j))

/-- `cp_bool`: exactly `0`, `1`, `false`, `true`, `no`, `yes`. -/
def cp_bool (s : List Nat) : Option Bool :=
  if s == bytes "0" then some false
  else if s == bytes "1" then some true
  else if s == bytes "false" then some false
  else if s == bytes "true" then some true
  else if s == bytes "no" then some false
  else if s == bytes "yes" then some true
  else none

/-- One digit of `cp_unsigned`'s accumulation loop: the three character
ranges, each validated against the active base. -/
def cp_unsigned_digit (base c : Nat) : Option Nat :=
  if 48 ≤ c && c ≤ 57 && c - 48 < base then some (c - 48)
  else if 65 ≤ c && c ≤ 90 && c - 65 + 10 < base then some (c - 65 + 10)
  else if 97 ≤ c && c ≤ 122 && c - 97 + 10 < base then some (c - 97 + 10)
  else none

/-- Accumulation loop of `cp_unsigned`: 32-bit unsigned arithmetic, the
overflow flag set (stickily) whenever a step wraps (`new_val < val`).
Returns the stop index, the accumulated value and the flag. -/
def cp_unsigned_loop (s : List Nat) (base : Nat) : Nat → Nat → Nat → Bool → Nat × Nat × Bool
  | 0, i, val, err => (i, val, err)
  | fuel + 1, i, val, err =>
    if i < s.length then
      match cp_unsigned_digit base (s.getD i 0) with
      | none => (i, val, err)
      | some d =>
        let new_val := (val * base + d) % 4294967296
        cp_unsigned_loop s base fuel (i + 1) new_val (err || decide (new_val < val))
    else (i, val, err)

/-- Index after the optional leading `+` of `cp_unsigned`. -/
def cp_unsigned_start (s : List Nat) : Nat :=
  if 0 < s.length && s.getD 0 0 == 43 then 1 else 0

/-- Base detection of `cp_unsigned` (`base ≤ 0` means "auto"): `0x`/`0X`
means 16 (the prefix is consumed, also when base 16 was forced), a
leading `0` means 8, otherwise 10.  Returns the digit start index and the
active base.  When the string holds no digits the source's leading-zero
test reads one byte past the end; the call is then rejected by the
no-digits check whatever base was picked, and `List.getD` returns 0
(not the byte `'0'`) here. -/
def cp_unsigned_base (base : Int) (s : List Nat) : Nat × Nat :=
  let i := cp_unsigned_start s
  if (base ≤ 0 || base == 16) && i < s.length - 1 && s.getD i 0 == 48 &&
      (s.getD (i + 1) 0 == 120 || s.getD (i + 1) 0 == 88) then
    (i + 2, 16)
  else if base ≤ 0 && s.getD i 0 == 48 then (i, 8)
  else if base ≤ 0 then (i, 10)
  else (i, base.toNat)

/-- `cp_unsigned(str, base, ...)`: `some (value, overflowed)` on success
(`overflowed` mirrors `cp_errno == CPE_OVERFLOW`, and the value is then
saturated to `0xFFFFFFFF`), `none` on failure. -/
def cp_unsigned (base : Int) (s : List Nat) : Option (Nat × Bool) :=
  let p := cp_unsigned_base base s
  if p.1 == s.length then none
  else
    let r := cp_unsigned_loop s p.2 (s.length + 1) p.1 0 false
    if !(r.1 == s.length) then none
    else some (if r.2.2 then 4294967295 else r.2.1, r.2.2)

/-- `cp_integer(str, base, ...)`: signed wrapper around `cp_unsigned`,
saturating to `0x7FFFFFFF` / `-0x80000000` on overflow.  The returned
flag mirrors `cp_errno == CPE_OVERFLOW` after the call. -/
def cp_integer (base : Int) (s : List Nat) : Option (Int × Bool) :=
  if s.length == 0 then none
  else
    let negative := s.getD 0 0 == 45
    let res := if negative then cp_unsigned base (s.drop 1) else cp_unsigned base s
    match res with
    | none => none
    | some (value, overflowed) =>
      if overflowed then some (0x7FFFFFFF, true)
      else if !negative && 0x80000000 ≤ value then some (0x7FFFFFFF, true)
      else if negative && 0x80000000 < value then some (-0x80000000, true)
      else if negative then some (-(value : Int), false)
      else some ((value : Int), false)

/-- Digit-run scan shared by `cp_real10`'s loops: first index at or after
`i` holding a non-digit. -/
def scan_digits (s : List Nat) : Nat → Nat → Nat
  | 0, i => i
  | fuel + 1, i =>
    if i < s.length && cIsDigit (s.getD i 0) then scan_digits s fuel (i + 1)
    else i

/-- Fold `n` digit bytes of `s` starting at index `i` into an accumulator,
most significant first (`acc = 10*acc + s[c]-'0'` in the source).  The C
accumulators are `int`; every execution this development evaluates stays
far below `2^31`, so the embedding uses unbounded integers. -/
def fold_digits (s : List Nat) : Nat → Nat → Int → Int
  | _, 0, acc => acc
  | i, n + 1, acc => fold_digits s (i + 1) n (10 * acc + ((s.getD i 0 : Int) - 48))

/-- Multiply the accumulator by ten `n` times (the digit-free shift loops
of `cp_real10`). -/
def shift10 : Nat → Int → Int
  | 0, acc => acc
  | n + 1, acc => shift10 n (10 * acc)

/-- `cp_real10(str, frac_digits, &int_part, &frac_part)`: fixed-point
decimal parse with sign, optional fraction and optional exponent; the
exponent shifts digits across the integer/fraction boundary, digits past
the requested precision are dropped and missing ones zero-padded. -/
def cp_real10_pair (s : List Nat) (frac_digits : Nat) : Option (Int × Int) :=
  let len := s.length
  if len == 0 then none
  else if frac_digits > 9 then none
  else
    let negative := s.getD 0 0 == 45
    let int_s := if s.getD 0 0 == 45 || s.getD 0 0 == 43 then 1 else 0
    let int_e := scan_digits s (len + 1) int_s
    let dotted := int_e < len && s.getD int_e 0 == 46
    let frac_s := if dotted then int_e + 1 else int_e
    let frac_e := if dotted then scan_digits s (len + 1) (int_e + 1) else int_e
    if int_s == int_e && frac_s == frac_e then none
    else
      let has_exp := frac_e < len && (s.getD frac_e 0 == 69 || s.getD frac_e 0 == 101)
      let i2 := frac_e + 1
      if has_exp && i2 == len then none
      else
        let negexp := has_exp && s.getD i2 0 == 45
        let i3 := if has_exp && (s.getD i2 0 == 45 || s.getD i2 0 == 43) then i2 + 1 else i2
        if has_exp && (i3 ≥ len || !cIsDigit (s.getD i3 0)) then none
        else
          let i4 := if has_exp then scan_digits s (len + 1) i3 else frac_e
          let expAbs := if has_exp then fold_digits s i3 (i4 - i3) 0 else 0
          let exp : Int := if negexp then -expAbs else expAbs
          if !(i4 == len) then none
          else
            let ip1 := fold_digits s int_s ((min (int_e : Int) ((int_e : Int) + exp) - (int_s : Int)).toNat) 0
            let ip2 := fold_digits s frac_s ((min (frac_e : Int) ((frac_s : Int) + exp) - (frac_s : Int)).toNat) ip1
            let ip3 := shift10 (((frac_s : Int) + exp - (frac_e : Int)).toNat) ip2
            let int_part := if negative then -ip3 else ip3
            let n1 := min (((int_s : Int) - ((int_e : Int) + exp)).toNat) frac_digits
            let fd1 := frac_digits - n1
            let c1 := (int_e : Int) + exp + (n1 : Int)
            let n2 := min (((int_e : Int) - c1).toNat) fd1
            let fp2 := fold_digits s c1.toNat n2 0
            let fd2 := fd1 - n2
            let c2 := frac_s + exp.toNat
            let n3 := min (frac_e - c2) fd2
            let fp3 := fold_digits s c2 n3 fp2
            let fp4 := shift10 (fd2 - n3) fp3
            let frac_part := if negative then -fp4 else fp4
            some (int_part, frac_part)

/-- Digit-folding loop of `cp_unsigned_real2` (Knuth's `round_decimals`):
nine rounds least-significant-digit first, scaled by `two = 2^(fb+1)`.
The C sum `fraction + digit*two` is computed in `unsigned` arithmetic. -/
def ur2_loop (two : Nat) : Nat → Nat → Nat → Nat
  | 0, fraction, _ => fraction
  | n + 1, fraction, fp => ur2_loop two n (((fraction + fp % 10 * two) % 4294967296) / 10) (fp / 10)

/-- `cp_unsigned_real2(str, frac_bits, ...)`: parse as a 9-digit decimal
real, then convert the decimal fraction to `frac_bits` binary fraction
with round-to-nearest.  The source's integer-part bound `(1 << (32 -
frac_bits)) - 1` is undefined C for `frac_bits ≤ 1`; it is modelled as
the mathematical `2^(32-frac_bits) - 1`, and the claims are settled away
from that edge. -/
def cp_unsigned_real2 (s : List Nat) (frac_bits : Nat) : Option Nat :=
  if frac_bits ≥ 29 then none
  else
    match cp_real10_pair s 9 with
    | none => none
    | some (ip, fp) =>
      if ip < 0 || fp < 0 then none
      else if ip > (2 : Int) ^ (32 - frac_bits) - 1 then none
      else
        let two := (2 * 2 ^ frac_bits) % 4294967296
        let fraction := (ur2_loop two 9 0 fp.toNat + 1) / 2
        some ((ip.toNat * 2 ^ frac_bits + fraction) % 4294967296)

/-- Modelled from the spec: the decimal rendering StringAccum's
`operator<<(unsigned)` performs for `sa << int_part` (straccum is not
under src/); minimal digit sequence, at least one digit. -/
def dec_digits : Nat → Nat → List Nat
  | 0, n => [48 + n % 10]
  | fuel + 1, n => if n < 10 then [48 + n] else dec_digits fuel (n / 10) ++ [48 + n % 10]

/-- Decimal form of a 32-bit unsigned value (at most ten digits). -/
def unparse_unsigned_dec (n : Nat) : List Nat :=
  dec_digits 12 n

/-- Loop computing `inaccuracy_rounder`: the smallest `5*10^m` with
`5*10^(m+1) ≥ one`. -/
def ir_loop (one : Nat) : Nat → Nat → Nat
  | 0, ir => ir
  | fuel + 1, ir => if ir * 10 < one then ir_loop one fuel (ir * 10) else ir

/-- Digit-emitting loop of `cp_unparse_real2`, in 32-bit unsigned
arithmetic (the `+= (one >> 1) - inaccuracy_rounder` adjustment is the
source's unsigned subtraction, and `allowable_inaccuracy *= 10` wraps
like the source's `unsigned`). -/
def upr2_loop (frac_bits one ir : Nat) : Nat → Nat → Nat → List Nat → List Nat
  | 0, _, _, out => out
  | fuel + 1, r, allowable, out =>
    let r1 := if allowable > one then (r + one / 2 + (4294967296 - ir)) % 4294967296 else r
    let out1 := out ++ [(48 + (r1 >>> frac_bits)) % 256]
    let r2 := (10 * (r1 % one)) % 4294967296
    let allowable1 := (allowable * 10) % 4294967296
    if r2 > allowable1 then upr2_loop frac_bits one ir fuel r2 allowable1 out1
    else out1

/-- `cp_unparse_real2(real, frac_bits)` (unsigned overload): integer part
in decimal, then, when the fraction is nonzero, `.` and the digits from
Knuth's `print_scaled`-style loop. -/
def cp_unparse_real2 (real : Nat) (frac_bits : Nat) : List Nat :=
  let int_part := real >>> frac_bits
  let sa := unparse_unsigned_dec int_part
  let one := 2 ^ frac_bits
  let r0 := real % one
  if r0 == 0 then sa
  else
    let r1 := (10 * r0 + 5) % 4294967296
    let ir := ir_loop one 12 5
    sa ++ [46] ++ upr2_loop frac_bits one ir 20 r1 10 []

/-- Digit loop of `cp_ip_address`: accumulate a decimal octet while it is
still at most 255. -/
def cp_ip_digits (s : List Nat) : Nat → Nat → Nat → Nat × Nat
  | 0, pos, part => (pos, part)
  | fuel + 1, pos, part =>
    if pos < s.length && cIsDigit (s.getD pos 0) && part ≤ 255 then
      cp_ip_digits s fuel (pos + 1) (part * 10 + (s.getD pos 0 - 48))
    else (pos, part)

/-- The four-octet loop of `cp_ip_address`; `acc.length` plays the
source's `d`. -/
def cp_ip_step (s : List Nat) : Nat → Nat → List Nat → Option (List Nat × Nat)
  | 0, pos, acc => some (acc, pos)
  | d + 1, pos, acc =>
    let pos1 := if acc.length > 0 && pos < s.length && s.getD pos 0 == 46 then pos + 1 else pos
    if pos1 ≥ s.length || !cIsDigit (s.getD pos1 0) then none
    else
      let p := cp_ip_digits s (s.length + 1) pos1 0
      if p.2 > 255 then none
      else cp_ip_step s d p.1 (acc ++ [p.2])

/-- `cp_ip_address`: four dot-separated decimal octets consuming the whole
string; otherwise the named-address lookup collaborator (`lookup`,
modelling `AddressInfo::query_ip`; the CLICK_TOOL build has none). -/
def cp_ip_address (lookup : List Nat → Option (List Nat)) (s : List Nat) : Option (List Nat) :=
  match cp_ip_step s 4 0 [] with
  | some (v, pos) => if pos == s.length then some v else lookup s
  | none => lookup s

/-- Hex-group loop of `cp_ip6_address`: accumulate while the group is
still at most 0xFFFF. -/
def ip6_hex_digits (s : List Nat) : Nat → Nat → Nat → Nat × Nat
  | 0, pos, part => (pos, part)
  | fuel + 1, pos, part =>
    if pos < s.length && cIsXdigit (s.getD pos 0) && part ≤ 0xFFFF then
      ip6_hex_digits s fuel (pos + 1) (part * 16 + xvalue (s.getD pos 0))
    else (pos, part)

/-- Group loop of `cp_ip6_address`: up to 8 groups, one `::` remembered by
position; `parts.length` plays the source's `d`.  `none` models the
immediate `bad_ip6_address` return on a group above 0xFFFF; otherwise
returns (resting position, `::` index, last group start, groups). -/
def ip6_groups (s : List Nat) : Nat → Nat → Option Nat → Nat → List Nat →
    Option (Nat × Option Nat × Nat × List Nat)
  | 0, pos, cc, lpp, parts => some (pos, cc, lpp, parts)
  | fuel + 1, pos, cc, lpp, parts =>
    let d := parts.length
    let startsCC := cc == none && pos < s.length - 1 &&
      s.getD pos 0 == 58 && s.getD (pos + 1) 0 == 58
    let cc1 := if startsCC then some d else cc
    let pos1 :=
      if startsCC then pos + 2
      else if d > 0 && pos < s.length - 1 && s.getD pos 0 == 58 &&
          cIsXdigit (s.getD (pos + 1) 0) then pos + 1
      else pos
    if pos1 ≥ s.length || !cIsXdigit (s.getD pos1 0) then some (pos1, cc1, lpp, parts)
    else
      let p := ip6_hex_digits s (s.length + 1) pos1 0
      if p.2 > 0xFFFF then none
      else ip6_groups s fuel p.1 cc1 pos1 (parts ++ [p.2])

/-- `cp_ip6_address`: up to 8 colon-separated hex groups, one `::` run
expanding with zeros, optionally ending in an embedded dotted-quad IPv4
literal; on any mismatch the lookup collaborator (`lookup6`, modelling
`AddressInfo::query_ip6`; `lookup4` is the collaborator the embedded
IPv4 parse would consult). -/
def cp_ip6_address (lookup4 lookup6 : List Nat → Option (List Nat)) (s : List Nat) :
    Option (List Nat) :=
  match ip6_groups s 8 0 none 0 [] with
  | none => lookup6 s
  | some (pos0, cc, lpp, parts0) =>
    let withV4 :=
      if pos0 < s.length && parts0.length ≤ 7 && s.getD pos0 0 == 46 then
        match cp_ip_address lookup4 (substr s lpp (s.length - lpp)) with
        | some ip4 =>
          ((parts0.dropLast ++
            [(ip4.getD 0 0) * 256 + ip4.getD 1 0, (ip4.getD 2 0) * 256 + ip4.getD 3 0]),
            s.length)
        | none => (parts0, pos0)
      else (parts0, pos0)
    let parts := withV4.1
    let pos := withV4.2
    let d := parts.length
    if (d < 8 && cc == none) || (d == 8 && !(cc == none)) then lookup6 s
    else
      let expanded :=
        if d < 8 then
          parts.take (cc.getD 0) ++ List.replicate (8 - d) 0 ++ parts.drop (cc.getD 0)
        else parts
      if pos < s.length then lookup6 s
      else some (expanded.foldr (fun p acc => (p / 256) % 256 :: p % 256 :: acc) [])

/-- Last index of byte `c` in `s` (`String::find_right`). -/
def find_right (s : List Nat) (c : Nat) : Option Nat :=
  (List.range s.length).foldl (fun acc i => if s.getD i 0 == c then some i else acc) none

/-- Leading `0xFF`-byte run of the mask-contiguity check in
`cp_ip6_prefix`: returns (first non-255 position, bits so far). -/
def ip6_mask_ff_run (mask : List Nat) : Nat → Nat → Nat → Nat × Nat
  | 0, pos, bits => (pos, bits)
  | fuel + 1, pos, bits =>
    if pos < 16 && mask.getD pos 0 == 255 then ip6_mask_ff_run mask fuel (pos + 1) (bits + 8)
    else (pos, bits)

/-- Partial-byte step of the mask-contiguity check: find `i < 8` with
`((~mask[pos]) & 255) + 1 == 1 << (8-i)`; on a hit add `i` bits and move
one byte on. -/
def ip6_mask_partial (mask : List Nat) (pos bits : Nat) : Nat × Nat :=
  if pos < 16 then
    let comp1 := (255 - mask.getD pos 0) + 1
    match (List.range 8).findSome?
        (fun i => if comp1 == 2 ^ (8 - i) then some i else none) with
    | some i => (pos + 1, bits + i)
    | none => (pos, bits)
  else (pos, bits)

/-- Zero-byte run of the mask-contiguity check.  The source's loop body is
`pos++` with `pos++` again in the for-update, so each iteration advances
two bytes and every other byte goes unchecked. -/
def ip6_mask_zero_run (mask : List Nat) : Nat → Nat → Nat
  | 0, pos => pos
  | fuel + 1, pos =>
    if pos < 16 && mask.getD pos 0 == 0 then ip6_mask_zero_run mask fuel (pos + 2)
    else pos

/-- `cp_ip6_prefix(str, value, bits, allow_bare_address)` (the bit-count
overload).  `lookupPfx` models `AddressInfo::query_ip6_prefix` and
`lookup6` doubles as the bare-address collaborator of
`bad_ip6_prefix`. -/
def cp_ip6_prefix_bits (lookup4 lookup6 : List Nat → Option (List Nat))
    (lookupPfx : List Nat → Option (List Nat × Int)) (s : List Nat) (allow_bare : Bool) :
    Option (List Nat × Int) :=
  let bad : Option (List Nat × Int) :=
    match lookupPfx s with
    | some r => some r
    | none =>
      if allow_bare then
        match lookup6 s with
        | some a => some (a, 128)
        | none => none
      else none
  let slash := find_right s 47
  match slash with
  | none =>
    if !allow_bare then bad
    else
      match cp_ip6_address lookup4 lookup6 s with
      | none => bad
      | some value => some (value, 64)
  | some k =>
    let ip_part := substr s 0 k
    let mask_part := substr s (k + 1) (s.length - (k + 1))
    match cp_ip6_address lookup4 lookup6 ip_part with
    | none => bad
    | some value =>
      if allow_bare && mask_part.length == 0 then some (value, 64)
      else
        match cp_ip6_address lookup4 lookup6 mask_part with
        | some mask =>
          let r1 := ip6_mask_ff_run mask 17 0 0
          let r2 := ip6_mask_partial mask r1.1 r1.2
          let posEnd := ip6_mask_zero_run mask 17 r2.1
          if posEnd < 16 then none
          else some (value, (r2.2 : Int))
        | none =>
          match cp_integer (-1) mask_part with
          | some (relevant_bits, _) =>
            if 0 ≤ relevant_bits && relevant_bits ≤ 128 then some (value, relevant_bits)
            else bad
          | none => bad

/-- A registered argument type, abstracted to the one observable the
binding engine uses: whether its parse operation reports an error on a
given raw argument text.  (The parse/store function pointers of
`cp_argtype` act on opaque storage; the intermediate value itself does
not influence control flow in `cp_va_parsev`.) -/
structure CpArgtype where
  parse_err : List Nat → Bool

/-- One entry of the `cp_va_parsev` variadic specification stream, after
registry lookup: the four special markers, or a concrete spec.  The
keyword of an `arg` entry is read by the source only once a keyword
marker fixed `npositional` (`kw` is ignored before that, matching the
conditional `va_arg` read). -/
inductive CpVaItem where
  | optionalMarker
  | keywordsMarker (mixed : Bool)
  | ignoreMarker
  | ignoreRest
  | arg (kw : Option (List Nat)) (t : CpArgtype)

/-- Transient per-call state of one `cp_value` slot: the argtype (cleared
when the slot goes unused), the declared keyword, the raw text assigned,
and the `v.v.i` supplied flag of keyword slots. -/
structure CpValue where
  argtype : Option CpArgtype
  keyword : Option (List Nat)
  v_string : List Nat
  supplied : Bool

/-- Default slot used for out-of-range list reads (never reached on the
source's in-bounds accesses). -/
def emptyValue : CpValue :=
  ⟨none, none, [], false⟩

/-- One entry of the aggregated keyword-error message, as
`add_keyword_error` renders it: `<argname N>` for a token with no
keyword part, the keyword itself for an unknown one, with a
`(duplicate keyword)` suffix for `kwDupKeyword`. -/
inductive KwOffender where
  | noKeyword (argno : Nat)
  | unknown (kw : List Nat)
  | dup (kw : List Nat)
deriving DecidableEq

/-- An error delivered to the `ErrorHandler` sink by `cp_va_parsev`. -/
inductive CpError where
  | tooMany
  | badKeywords (offenders : List KwOffender) (valid : List (List Nat))
  | arity (too_many : Bool)
  | parseErr (idx : Nat)
deriving DecidableEq

/-- State built by the specification-consuming loop of `cp_va_parsev`:
the slots and the `nrequired` / `npositional` / `mixed_keywords` /
`ignore_rest` settings (`none` models the C sentinels `-1`). -/
structure CpSetup where
  values : List CpValue
  nrequired : Option Nat
  npositional : Option Nat
  mixed : Bool
  ignore_rest : Bool

/-- Specification-consuming loop of `cp_va_parsev`.  The `CP_VALUES_SIZE
- 1` bound aborts with an error; `cpiOptional` and the keyword markers
fix the thresholds on first occurrence; `cpiIgnoreRest` stops
consumption.  An `ignoreMarker` pushes a slot whose (real, registered)
argtype parses nothing and reports no error; its slot keeps `keyword =
none`. -/
def cp_va_setup_loop : List CpVaItem → CpSetup → Except CpError CpSetup
  | [], st => .ok st
  | item :: rest, st =>
    if st.values.length == 80 - 1 then .error .tooMany
    else
      match item with
      | .optionalMarker =>
        let nrequired := if st.nrequired == none then some st.values.length else st.nrequired
        cp_va_setup_loop rest { st with nrequired := nrequired }
      | .keywordsMarker mixed =>
        let nrequired := if st.nrequired == none then some st.values.length else st.nrequired
        let npositional := if st.npositional == none then some st.values.length else st.npositional
        cp_va_setup_loop rest
          { st with nrequired := nrequired, npositional := npositional, mixed := mixed }
      | .ignoreMarker =>
        cp_va_setup_loop rest
          { st with values := st.values ++ [⟨some ⟨fun _ => false⟩, none, [], false⟩] }
      | .ignoreRest =>
        let nrequired := if st.nrequired == none then some st.values.length else st.nrequired
        .ok { st with nrequired := nrequired, ignore_rest := true }
      | .arg kw t =>
        let keyword := if st.npositional == none then none else kw
        cp_va_setup_loop rest
          { st with values := st.values ++ [⟨some t, keyword, [], false⟩] }

/-- Initial setup state; `keywords_only` (the `cp_va_parse_keyword` entry
point) starts with `nrequired = npositional = 0` and `ignore_rest`. -/
def cp_va_setup (keywords_only : Bool) (items : List CpVaItem) : Except CpError CpSetup :=
  cp_va_setup_loop items
    ⟨[], if keywords_only then some 0 else none, if keywords_only then some 0 else none,
      false, keywords_only⟩

/-- `assign_keyword_argument`: split the token into keyword and rest
(`kwNoKeyword = -2` when that fails or the rest is empty), find the first
slot in the keyword region with that name (first match wins) and bind the
rest to it.  `kwUnkKeyword = -3` when no slot matches.  The source's
duplicate check (`kwDupKeyword = -1`) is commented out, so a re-supplied
keyword silently rebinds the same slot and the code -1 is never
returned. -/
def assign_keyword_argument (values : List CpValue) (npositional : Nat) (arg : List Nat) :
    Int × List CpValue :=
  match cp_keyword arg with
  | none => (-2, values)
  | some (kw, rest) =>
    if rest == [] then (-2, values)
    else
      match (values.drop npositional).findIdx? (fun v => v.keyword == some kw) with
      | some j =>
        let idx := npositional + j
        let v := values.getD idx emptyValue
        (0, values.set idx { v with supplied := true, v_string := rest })
      | none => (-3, values)

/-- `add_keyword_error`: append one rendered offender for a negative
result code. -/
def add_keyword_error (offs : List KwOffender) (err : Int) (arg : List Nat) (argno : Nat) :
    List KwOffender :=
  if 0 ≤ err then offs
  else if err == -2 then offs ++ [.noKeyword argno]
  else
    let kw := match cp_keyword arg with
      | some p => p.1
      | none => []
    if err == -1 then offs ++ [.dup kw] else offs ++ [.unknown kw]

/-- State of the argument-assignment loop. -/
structure CpAssign where
  values : List CpValue
  npositional_supplied : Nat
  kw_errors : List KwOffender

/-- Argument-assignment loop of `cp_va_parsev`: past the positional
region every token is a keyword candidate (a keywordless token bumps the
positional count for a later signature error, unless `ignore_rest`);
inside it, mixed mode first tries the token as a keyword. -/
def cp_va_assign_loop (npositional : Nat) (ignore_rest mixed : Bool) :
    List (List Nat) → Nat → CpAssign → CpAssign
  | [], _, st => st
  | arg :: rest, argno, st =>
    if npositional ≤ st.npositional_supplied then
      let r := assign_keyword_argument st.values npositional arg
      if r.1 == -1 then
        cp_va_assign_loop npositional ignore_rest mixed rest (argno + 1)
          { st with values := r.2, kw_errors := add_keyword_error st.kw_errors r.1 arg argno }
      else if r.1 == 0 || ignore_rest then
        cp_va_assign_loop npositional ignore_rest mixed rest (argno + 1)
          { st with values := r.2 }
      else if r.1 == -2 then
        cp_va_assign_loop npositional ignore_rest mixed rest (argno + 1)
          { st with values := r.2, npositional_supplied := st.npositional_supplied + 1 }
      else
        cp_va_assign_loop npositional ignore_rest mixed rest (argno + 1)
          { st with values := r.2, kw_errors := add_keyword_error st.kw_errors r.1 arg argno }
    else
      let tryMixed := if mixed then some (assign_keyword_argument st.values npositional arg) else none
      match tryMixed with
      | some r =>
        if 0 ≤ r.1 then
          cp_va_assign_loop npositional ignore_rest mixed rest (argno + 1) { st with values := r.2 }
        else if r.1 == -1 then
          cp_va_assign_loop npositional ignore_rest mixed rest (argno + 1)
            { st with values := r.2, kw_errors := add_keyword_error st.kw_errors r.1 arg argno }
        else
          let v := st.values.getD st.npositional_supplied emptyValue
          let values := st.values.set st.npositional_supplied { v with v_string := arg }
          cp_va_assign_loop npositional ignore_rest mixed rest (argno + 1)
            { st with values := values, npositional_supplied := st.npositional_supplied + 1 }
      | none =>
        let v := st.values.getD st.npositional_supplied emptyValue
        let values := st.values.set st.npositional_supplied { v with v_string := arg }
        cp_va_assign_loop npositional ignore_rest mixed rest (argno + 1)
          { st with values := values, npositional_supplied := st.npositional_supplied + 1 }

/-- The `(valid keywords are ...)` list of the aggregated error: the
declared names of the keyword region (an ignore slot there has none). -/
def valid_keywords (values : List CpValue) (npositional : Nat) : List (List Nat) :=
  (values.drop npositional).map (fun v => v.keyword.getD [])

/-- The argtype-clearing step before the parse phase: unfilled positional
slots and unsupplied keyword slots lose their argtype. -/
def clear_unused (npositional npositional_supplied : Nat) (values : List CpValue) :
    List CpValue :=
  values.enum.map (fun p =>
    if npositional_supplied ≤ p.1 && p.1 < npositional then { p.2 with argtype := none }
    else if npositional ≤ p.1 && !p.2.supplied then { p.2 with argtype := none }
    else p.2)

/-- Parse phase: every slot that kept an argtype runs its parse operation
on its assigned text; failures are collected (all slots are attempted). -/
def parse_phase (values : List CpValue) : List CpError :=
  values.enum.foldr
    (fun p acc =>
      match p.2.argtype with
      | some t => if t.parse_err p.2.v_string then .parseErr p.1 :: acc else acc
      | none => acc) []

/-- Commit phase: the store operations that run, as (slot index, raw text
bound to the slot), in slot order; `nset` is the length of this list. -/
def store_list (values : List CpValue) : List (Nat × List Nat) :=
  values.enum.foldr
    (fun p acc => if p.2.argtype.isSome then (p.1, p.2.v_string) :: acc else acc) []

/-- Result of one `cp_va_parsev` call: the return value, the errors
delivered to the sink, and the store operations that executed. -/
structure ParsevOut where
  retval : Int
  errors : List CpError
  stores : List (Nat × List Nat)
deriving DecidableEq

/-- Setup and assignment phases together (`none` when spec consumption
aborted). -/
def cp_va_phase1 (keywords_only : Bool) (items : List CpVaItem) (args : List (List Nat)) :
    Option (CpSetup × Nat × Nat × CpAssign) :=
  match cp_va_setup keywords_only items with
  | .error _ => none
  | .ok st =>
    let nvalues := st.values.length
    let nrequired := st.nrequired.getD nvalues
    let npositional := st.npositional.getD nvalues
    some (st, nrequired, npositional,
      cp_va_assign_loop npositional st.ignore_rest st.mixed args 0 ⟨st.values, 0, []⟩)

/-- The slot states as they stand at the parse phase. -/
def cp_va_final_values (keywords_only : Bool) (items : List CpVaItem)
    (args : List (List Nat)) : List CpValue :=
  match cp_va_phase1 keywords_only items args with
  | none => []
  | some (_, _, npositional, asg) =>
    clear_unused npositional asg.npositional_supplied asg.values

/-- `cp_va_parsev`: the whole binding call.  Keyword errors are reported
(one combined message) before the arity check; the parse phase runs for
every bound slot; the commit phase runs only when the error count did not
grow, and then stores every bound slot and returns the count. -/
def cp_va_parsev (keywords_only : Bool) (items : List CpVaItem) (args : List (List Nat)) :
    ParsevOut :=
  match cp_va_setup keywords_only items with
  | .error e => ⟨-1, [e], []⟩
  | .ok st =>
    let nvalues := st.values.length
    let nrequired := st.nrequired.getD nvalues
    let npositional := st.npositional.getD nvalues
    let asg := cp_va_assign_loop npositional st.ignore_rest st.mixed args 0 ⟨st.values, 0, []⟩
    if !(asg.kw_errors == []) && !keywords_only then
      ⟨-1, [.badKeywords asg.kw_errors (valid_keywords asg.values npositional)], []⟩
    else if asg.npositional_supplied < nrequired || npositional < asg.npositional_supplied then
      ⟨-1, [.arity (npositional < asg.npositional_supplied)], []⟩
    else
      let values := clear_unused npositional asg.npositional_supplied asg.values
      let perrs := parse_phase values
      if !(perrs == []) then ⟨-1, perrs, []⟩
      else ⟨((store_list values).length : Int), [], store_list values⟩

/-- Parse-error behavior of the registered `bool` type
(`default_parsefunc`, case `cpiBool`): error iff `cp_bool` fails. -/
def argBool : CpArgtype :=
  ⟨fun s => (cp_bool s).isNone⟩

/-- Parse-error behavior of the registered `int` type
(`default_parsefunc`, case `cpiInteger`): error iff `cp_integer` fails or
overflowed (the `underflower`/`overflower` bounds cannot fire for a full
`int`). -/
def argInt : CpArgtype :=
  ⟨fun s =>
    match cp_integer (-1) s with
    | none => true
    | some (_, overflowed) => overflowed⟩

/-- Two required positional bool arguments. -/
def demoBoolItems : List CpVaItem :=
  [.arg none argBool, .arg none argBool]

/-- One declared keyword `FOO` of type bool, keywords from the start. -/
def demoDupItems : List CpVaItem :=
  [.keywordsMarker true, .arg (some (bytes "FOO")) argBool]

/-- The keyword `FOO` supplied twice with different values. -/
def demoDupArgs : List (List Nat) :=
  [bytes "FOO true", bytes "FOO false"]

/-- One declared keyword `A`, keywords from the start. -/
def demoPrecItems : List CpVaItem :=
  [.keywordsMarker true, .arg (some (bytes "A")) argBool]

/-- A keywordless token (which bumps the positional count past
`npositional`, an arity violation) followed by an undeclared keyword. -/
def demoPrecArgs : List (List Nat) :=
  [bytes "nokw!", bytes "X 1"]

/-- Two required positional ints, then a declared keyword `OTHER`
(`cpKeywords` registers as mixed). -/
def demoArity2Items : List CpVaItem :=
  [.arg none argInt, .arg none argInt, .keywordsMarker true, .arg (some (bytes "OTHER")) argInt]

/-- The 16-byte IPv6 mask whose one-bits are a left-justified contiguous
run of length `k` — the spec's description of a valid mask, written down
to compare against what the code accepts. -/
def ip6_mask_of_bits (k : Nat) : List Nat :=
  (List.range 16).map (fun i =>
    if 8 * (i + 1) ≤ k then 255
    else if k ≤ 8 * i then 0
    else 256 - 2 ^ (8 * (i + 1) - k))

/-- Comment-freeness of a text: no `//` or `/*` pair of adjacent bytes
anywhere (the hypothesis of the idempotence claim about
`cp_uncomment`). -/
def no_comment : List Nat → Bool
  | [] => true
  | [_] => true
  | a :: b :: t => !(a == 47 && (b == 47 || b == 42)) && no_comment (b :: t)

/-- Whether auto-detection sees a `0x`/`0X` prefix (after the optional
`+`): the condition of `cp_unsigned`'s base-16 branch. -/
def hex_prefixed (s : List Nat) : Bool :=
  let i := cp_unsigned_start s
  i < s.length - 1 && s.getD i 0 == 48 && (s.getD (i + 1) 0 == 120 || s.getD (i + 1) 0 == 88)

/-- Whether the byte at the digit start is `0` (the octal auto-detection
test). -/
def leading_zero (s : List Nat) : Bool :=
  s.getD (cp_unsigned_start s) 0 == 48

/-- The acceptance condition of `cp_unsigned` after base selection: at
least one character remains and every one is a digit of the active
base. -/
def good_digits (base : Nat) (l : List Nat) : Bool :=
  !(l == []) && l.all (fun c => (cp_unsigned_digit base c).isSome)

/-- C7: `cp_argvec` on the empty string yields zero arguments; a trailing
top-level comma preserves a trailing empty field; fields are split on
top-level commas with comments removed and surrounding whitespace
trimmed. -/
theorem cp_argvec_tokenization :
    cp_argvec (bytes "") = [] ∧
    cp_argvec (bytes "a,") = [bytes "a", bytes ""] ∧
    cp_argvec (bytes "a, b , c") = [bytes "a", bytes "b", bytes "c"] ∧
    cp_argvec (bytes "a /*x*/, b // y") = [bytes "a", bytes "b"] := by
  decide

/-- C4: the fixed-point binary round trip fails on the code.  With
`frac_bits = 5` the value `x = 1` (true fraction `1/32 = 0.03125`, four
significant decimal digits) unparses to the text `0.05`, and parsing
`0.05` back at 5 fractional bits returns 2, not 1: the digit-emitting
loop's "allowable inaccuracy" adjustment uses an `inaccuracy_rounder`
that is too coarse for small `frac_bits`, so the printed decimal is not
within half an ulp of the represented value, contradicting the round-trip
invariant stated in the source's own comment above `cp_unparse_real2`. -/
theorem cp_real2_round_trip_failure :
    cp_unparse_real2 1 5 = bytes "0.05" ∧
    cp_unsigned_real2 (bytes "0.05") 5 = some 2 ∧
    cp_unparse_real2 7 4 = bytes "0.47" ∧
    cp_unsigned_real2 (bytes "0.47") 4 = some 8 := by
  decide

/-- C9: the IPv6 address grammar on its decision points: `::1` is 15 zero
bytes then 1; `::ffff:1.2.3.4` is the IPv4-mapped form; eight full groups
parse; `::` alone is all zeros; a group count that does not reconcile
with the presence or absence of `::` (too few groups without `::`, eight
groups plus `::`, nine groups), or a group over 0xFFFF, falls back to the
lookup collaborator. -/
theorem cp_ip6_address_grammar :
    ∀ l4 l6 : List Nat → Option (List Nat),
      cp_ip6_address l4 l6 (bytes "::1") =
        some [0, 0, 0, 0, 0, 0, 0, 0, 0, 0, 0, 0, 0, 0, 0, 1] ∧
      cp_ip6_address l4 l6 (bytes "::ffff:1.2.3.4") =
        some [0, 0, 0, 0, 0, 0, 0, 0, 0, 0, 255, 255, 1, 2, 3, 4] ∧
      cp_ip6_address l4 l6 (bytes "1:2:3:4:5:6:7:8") =
        some [0, 1, 0, 2, 0, 3, 0, 4, 0, 5, 0, 6, 0, 7, 0, 8] ∧
      cp_ip6_address l4 l6 (bytes "::") = some (List.replicate 16 0) ∧
      cp_ip6_address l4 l6 (bytes "1:2:3") = l6 (bytes "1:2:3") ∧
      cp_ip6_address l4 l6 (bytes "1::2:3:4:5:6:7:8") = l6 (bytes "1::2:3:4:5:6:7:8") ∧
      cp_ip6_address l4 l6 (bytes "1:2:3:4:5:6:7:8:9") = l6 (bytes "1:2:3:4:5:6:7:8:9") ∧
      cp_ip6_address l4 l6 (bytes "12345::") = l6 (bytes "12345::") := by
  intro l4 l6
  exact ⟨rfl, rfl, rfl, rfl, rfl, rfl, rfl, rfl⟩

/-- C3: the mask-contiguity check of `cp_ip6_prefix` is broken.  The mask
text `0:ff00::` parses to the 16-byte mask with byte 2 equal to 255 and
all other bytes 0, which is not a left-justified contiguous run (no bit
count 0..128 yields it); yet `cp_ip6_prefix` accepts `::1/0:ff00::` and
returns bit count 0, because the trailing zero-byte loop advances two
positions per iteration (`pos++` in both body and update) and never
inspects the odd-offset byte holding the stray 255.  No collaborator is
consulted: the result is the same for every lookup function. -/
theorem cp_ip6_prefix_noncontiguous_mask_accepted :
    ∀ l4 l6 : List Nat → Option (List Nat), ∀ lp : List Nat → Option (List Nat × Int),
      cp_ip6_address l4 l6 (bytes "0:ff00::") =
        some [0, 0, 255, 0, 0, 0, 0, 0, 0, 0, 0, 0, 0, 0, 0, 0] ∧
      ((List.range 129).all fun k =>
        !(ip6_mask_of_bits k == [0, 0, 255, 0, 0, 0, 0, 0, 0, 0, 0, 0, 0, 0, 0, 0])) = true ∧
      cp_ip6_prefix_bits l4 l6 lp (bytes "::1/0:ff00::") false =
        some ([0, 0, 0, 0, 0, 0, 0, 0, 0, 0, 0, 0, 0, 0, 0, 1], 0) := by
  intro l4 l6 lp
  exact ⟨rfl, by decide, rfl⟩

/-- C2 counterexample: the keyword `FOO` supplied twice in one call binds
with no error at all — the duplicate check in `assign_keyword_argument`
is commented out — and the store phase runs with the second occurrence's
value, contradicting "exactly one DuplicateKeywordError … and no value is
stored for either occurrence". -/
theorem cp_va_duplicate_keyword_counterexample :
    (cp_va_parsev false demoDupItems demoDupArgs).errors = [] ∧
    (cp_va_parsev false demoDupItems demoDupArgs).stores = [(0, bytes "false")] ∧
    (cp_va_parsev false demoDupItems demoDupArgs).retval = 1 := by
  decide

/-- C5 counterexample: binding a spec with 2 required positional ints
(plus a declared keyword `OTHER`) against the single token `kw foo`,
whose keyword is undeclared, yields a too-few-arguments arity error — the
token is consumed as a positional argument — not an unknown-keyword
error. -/
theorem cp_va_undeclared_keyword_arity_counterexample :
    (cp_va_parsev false demoArity2Items [bytes "kw foo"]).errors = [CpError.arity false] := by
  decide

/-- C1: atomic commit of the binding engine.  If any slot's parse step
reported an error, the call returns -1 and no store operation executed;
if the call produced no error at all, the store operation ran for exactly
the bound slots (in order, with the text each was bound to) and the
return value is the count of values stored. -/
theorem cp_va_parsev_atomic_commit :
    ∀ ko items args,
      ((∃ i, CpError.parseErr i ∈ (cp_va_parsev ko items args).errors) →
        (cp_va_parsev ko items args).retval = -1 ∧ (cp_va_parsev ko items args).stores = []) ∧
      ((cp_va_parsev ko items args).errors = [] →
        (cp_va_parsev ko items args).stores = store_list (cp_va_final_values ko items args) ∧
        (cp_va_parsev ko items args).retval =
          ((store_list (cp_va_final_values ko items args)).length : Int)) := by
  intro ko items args
  unfold cp_va_parsev cp_va_final_values cp_va_phase1
  cases h : cp_va_setup ko items with
  | error e => simp
  | ok st =>
    simp only []
    split
    · simp
    · split
      · simp
      · split
        · exact ⟨fun _ => ⟨rfl, rfl⟩, by simp_all⟩
        · refine ⟨fun ⟨i, hi⟩ => absurd hi (by simp), fun _ => ⟨rfl, rfl⟩⟩

/-- C1 witness: a call with a failing bool parse stores nothing and
returns -1; the same spec with both arguments well-formed stores both
bound slots and returns their count. -/
theorem cp_va_parsev_atomic_commit_witness :
    ((cp_va_parsev false demoBoolItems [bytes "true", bytes "zz"]).retval = -1 ∧
      (cp_va_parsev false demoBoolItems [bytes "true", bytes "zz"]).stores = []) ∧
    ((cp_va_parsev false demoBoolItems [bytes "true", bytes "false"]).stores =
        store_list (cp_va_final_values false demoBoolItems [bytes "true", bytes "false"]) ∧
      (cp_va_parsev false demoBoolItems [bytes "true", bytes "false"]).retval =
        ((store_list (cp_va_final_values false demoBoolItems [bytes "true", bytes "false"])).length :
          Int)) :=
  ⟨(cp_va_parsev_atomic_commit false demoBoolItems [bytes "true", bytes "zz"]).1 ⟨1, by decide⟩,
   (cp_va_parsev_atomic_commit false demoBoolItems [bytes "true", bytes "false"]).2 (by decide)⟩

/-- C2 (amended): `assign_keyword_argument` never returns the
`kwDupKeyword` code (its duplicate check is commented out in the source),
so a keyword supplied twice binds without any error, the later occurrence
overwriting the earlier; the store phase then runs with the last value. -/
theorem cp_va_duplicate_keyword_last_wins :
    (∀ values np arg, (assign_keyword_argument values np arg).1 ≠ -1) ∧
    cp_va_parsev false demoDupItems demoDupArgs = ⟨1, [], [(0, bytes "false")]⟩ := by
  constructor
  · intro values np arg
    unfold assign_keyword_argument
    cases cp_keyword arg with
    | none => simp
    | some p =>
      simp only []
      split
      · simp
      · split <;> simp
  · decide

/-- C2 amended witness: the no-duplicate-code fact at a concrete input. -/
theorem cp_va_duplicate_keyword_last_wins_witness :
    (assign_keyword_argument [] 0 (bytes "FOO x")).1 ≠ -1 :=
  cp_va_duplicate_keyword_last_wins.1 [] 0 (bytes "FOO x")

/-- C5 (amended): whenever the assignment pass collected keyword errors
(tokens in the keyword region that had no keyword part reported there, or
did not match a declared name) and the call is not keywords-only, the
call reports exactly one combined `badKeywords` error carrying every
offender and the full list of valid keyword names, and returns -1 before
the arity check runs — so the keyword error takes precedence over an
arity error (second conjunct: a run whose positional count also violates
arity still reports only the combined keyword error).  But a
keyword-shaped token that arrives while positional slots are unfilled is
consumed as a positional argument, so the spec's 2-positional example
yields an arity error (third conjunct). -/
theorem cp_va_keyword_error_aggregation :
    (∀ ko items args r,
      cp_va_phase1 ko items args = some r →
      r.2.2.2.kw_errors ≠ [] → ko = false →
      cp_va_parsev ko items args =
        ⟨-1, [.badKeywords r.2.2.2.kw_errors (valid_keywords r.2.2.2.values r.2.2.1)], []⟩) ∧
    cp_va_parsev false demoPrecItems demoPrecArgs =
      ⟨-1, [.badKeywords [.unknown (bytes "X")] [bytes "A"]], []⟩ ∧
    (cp_va_parsev false demoArity2Items [bytes "kw foo"]).errors = [CpError.arity false] := by
  refine ⟨?_, by decide, by decide⟩
  intro ko items args r h hkw hko
  subst hko
  unfold cp_va_phase1 at h
  unfold cp_va_parsev
  cases hs : cp_va_setup false items with
  | error e => rw [hs] at h; simp at h
  | ok st' =>
    rw [hs] at h
    have h' := h.symm
    simp only [Option.some.injEq] at h'
    subst h'
    have hb : ∀ asg : CpAssign, asg.kw_errors ≠ [] → (asg.kw_errors == []) = false := by
      intro asg hne
      cases hk : asg.kw_errors == [] with
      | true => exact absurd (eq_of_beq hk) hne
      | false => rfl
    simp [hb _ hkw]

/-- C5 amended witness: the combined-error clause applied at the
precedence example. -/
theorem cp_va_keyword_error_aggregation_witness :
    cp_va_parsev false demoPrecItems demoPrecArgs =
      ⟨-1, [.badKeywords [.unknown (bytes "X")] [bytes "A"]], []⟩ :=
  cp_va_keyword_error_aggregation.1 false demoPrecItems demoPrecArgs
    ⟨⟨[⟨some argBool, some (bytes "A"), [], false⟩], some 0, some 0, true, false⟩, 0, 0,
      ⟨[⟨some argBool, some (bytes "A"), [], false⟩], 1, [.unknown (bytes "X")]⟩⟩
    rfl (by decide) rfl

/-- The digit loop stops exactly at the length iff every remaining
character is a digit of the active base. -/
theorem cp_unsigned_loop_all (s : List Nat) (B : Nat) :
    ∀ fuel i val err, s.length ≤ i + fuel → i ≤ s.length →
      ((cp_unsigned_loop s B fuel i val err).1 = s.length ↔
        (s.drop i).all (fun c => (cp_unsigned_digit B c).isSome) = true) := by
  intro fuel
  induction fuel with
  | zero =>
    intro i val err hf hi
    have : i = s.length := by omega
    subst this
    simp [cp_unsigned_loop]
  | succ n ih =>
    intro i val err hf hi
    by_cases hlt : i < s.length
    · rw [cp_unsigned_loop]
      simp only [hlt, if_true]
      have hdrop : s.drop i = s.getD i 0 :: s.drop (i + 1) := by
        rw [List.getD_eq_getElem s 0 hlt]
        exact List.drop_eq_getElem_cons hlt
      cases hd : cp_unsigned_digit B (s.getD i 0) with
      | none =>
        simp only []
        rw [hdrop]
        simp only [List.all_cons, hd, Option.isSome_none, Bool.false_and,
          Bool.false_eq_true, iff_false]
        intro hcon
        have : i = s.length := hcon
        omega
      | some d =>
        simp only []
        rw [hdrop]
        simp only [List.all_cons, hd, Option.isSome_some, Bool.true_and]
        exact ih (i + 1) _ _ (by omega) (by omega)
    · have : i = s.length := by omega
      subst this
      rw [cp_unsigned_loop]
      simp

/-- The digit start index never exceeds the length. -/
theorem cp_unsigned_base_start_le (b : Int) (s : List Nat) :
    (cp_unsigned_base b s).1 ≤ s.length := by
  have hstart : cp_unsigned_start s ≤ s.length := by
    unfold cp_unsigned_start
    split
    · rename_i h
      simp only [Bool.and_eq_true, decide_eq_true_eq] at h
      omega
    · omega
  unfold cp_unsigned_base
  dsimp only
  split
  · rename_i h
    simp only [Bool.and_eq_true, decide_eq_true_eq] at h
    omega
  · split
    · exact hstart
    · split
      · exact hstart
      · exact hstart

/-- Auto base detection, `0x`/`0X` case: same behavior as forcing 16. -/
theorem cp_unsigned_auto_hex (s : List Nat) (h : hex_prefixed s = true) :
    cp_unsigned 0 s = cp_unsigned 16 s := by
  unfold hex_prefixed at h
  dsimp only at h
  suffices hp : cp_unsigned_base 0 s = cp_unsigned_base 16 s by
    unfold cp_unsigned
    rw [hp]
  unfold cp_unsigned_base
  dsimp only
  rw [show (decide ((0 : Int) ≤ 0) || ((0 : Int) == 16)) = true from rfl,
    show (decide ((16 : Int) ≤ 0) || ((16 : Int) == 16)) = true from rfl]
  simp only [Bool.true_and]
  rw [h]
  simp

/-- Auto base detection, leading-zero case: same behavior as forcing 8. -/
theorem cp_unsigned_auto_octal (s : List Nat) (h : hex_prefixed s = false)
    (h0 : leading_zero s = true) : cp_unsigned 0 s = cp_unsigned 8 s := by
  unfold hex_prefixed at h
  dsimp only at h
  unfold leading_zero at h0
  suffices hp : cp_unsigned_base 0 s = cp_unsigned_base 8 s by
    unfold cp_unsigned
    rw [hp]
  unfold cp_unsigned_base
  dsimp only
  rw [show (decide ((0 : Int) ≤ 0) || ((0 : Int) == 16)) = true from rfl,
    show (decide ((8 : Int) ≤ 0) || ((8 : Int) == 16)) = false from rfl]
  simp only [Bool.true_and, Bool.false_and]
  rw [h, h0]
  simp

/-- Auto base detection, default case: same behavior as forcing 10. -/
theorem cp_unsigned_auto_decimal (s : List Nat) (h : hex_prefixed s = false)
    (h0 : leading_zero s = false) : cp_unsigned 0 s = cp_unsigned 10 s := by
  unfold hex_prefixed at h
  dsimp only at h
  unfold leading_zero at h0
  suffices hp : cp_unsigned_base 0 s = cp_unsigned_base 10 s by
    unfold cp_unsigned
    rw [hp]
  unfold cp_unsigned_base
  dsimp only
  rw [show (decide ((0 : Int) ≤ 0) || ((0 : Int) == 16)) = true from rfl,
    show (decide ((10 : Int) ≤ 0) || ((10 : Int) == 16)) = false from rfl]
  simp only [Bool.true_and, Bool.false_and]
  rw [h, h0]
  simp

/-- `cp_unsigned` rejects exactly the strings that, past the sign and
base prefix, are empty or hold a character that is not a digit of the
active base. -/
theorem cp_unsigned_reject_iff (b : Int) (s : List Nat) :
    cp_unsigned b s = none ↔
      good_digits (cp_unsigned_base b s).2 (s.drop (cp_unsigned_base b s).1) = false := by
  unfold cp_unsigned good_digits
  have hple := cp_unsigned_base_start_le b s
  by_cases h1 : (cp_unsigned_base b s).1 = s.length
  · simp [h1]
  · have hbeq : ((cp_unsigned_base b s).1 == s.length) = false := by
      simp [h1]
    simp only [hbeq, Bool.false_eq_true, if_false]
    have hall := cp_unsigned_loop_all s (cp_unsigned_base b s).2 (s.length + 1)
      (cp_unsigned_base b s).1 0 false (by omega) (by omega)
    have hne : (s.drop (cp_unsigned_base b s).1 == []) = false := by
      have hnil : ¬ s.drop (cp_unsigned_base b s).1 = [] := by
        intro hcon
        have := List.drop_eq_nil_iff.mp hcon
        omega
      simp [hnil]
    simp only [hne, Bool.not_false, Bool.true_and]
    cases hA : (s.drop (cp_unsigned_base b s).1).all
        (fun c => (cp_unsigned_digit (cp_unsigned_base b s).2 c).isSome) with
    | true =>
      have hEnd := hall.mpr hA
      simp [hEnd]
    | false =>
      have hNE : ¬((cp_unsigned_loop s (cp_unsigned_base b s).2 (s.length + 1)
          (cp_unsigned_base b s).1 0 false).1 = s.length) := by
        intro hcon
        rw [hall] at hcon
        simp [hcon] at hA
      have hbeq2 : ((cp_unsigned_loop s (cp_unsigned_base b s).2 (s.length + 1)
          (cp_unsigned_base b s).1 0 false).1 == s.length) = false := by
        simp [hNE]
      simp [hbeq2]

/-- On sticky overflow `cp_unsigned` still succeeds, saturated to the
unsigned maximum. -/
theorem cp_unsigned_overflow_sat (b : Int) (s : List Nat) (v : Nat)
    (h : cp_unsigned b s = some (v, true)) : v = 4294967295 := by
  unfold cp_unsigned at h
  dsimp only at h
  split at h
  · exact absurd h (by simp)
  · split at h
    · exact absurd h (by simp)
    · simp only [Option.some.injEq, Prod.mk.injEq] at h
      obtain ⟨h1, h2⟩ := h
      rw [h2] at h1
      simpa using h1.symm

/-- `cp_integer` keeps its result inside the signed 32-bit range and
saturates to the signed maximum/minimum when it flags overflow. -/
theorem cp_integer_saturates (b : Int) (s : List Nat) (v : Int) (f : Bool)
    (h : cp_integer b s = some (v, f)) :
    (-2147483648 ≤ v ∧ v ≤ 2147483647) ∧
      (f = true → v = 2147483647 ∨ v = -2147483648) := by
  unfold cp_integer at h
  dsimp only at h
  split at h
  · exact absurd h (by simp)
  · cases hr : (if s.getD 0 0 == 45 then cp_unsigned b (s.drop 1) else cp_unsigned b s) with
    | none => rw [hr] at h; exact absurd h (by simp)
    | some p =>
      rw [hr] at h
      obtain ⟨value, overflowed⟩ := p
      simp only [] at h
      split at h
      · simp only [Option.some.injEq, Prod.mk.injEq] at h
        obtain ⟨h1, _⟩ := h
        subst h1
        exact ⟨by omega, fun _ => Or.inl rfl⟩
      · split at h
        · simp only [Option.some.injEq, Prod.mk.injEq] at h
          obtain ⟨h1, _⟩ := h
          subst h1
          exact ⟨by omega, fun _ => Or.inl rfl⟩
        · split at h
          · simp only [Option.some.injEq, Prod.mk.injEq] at h
            obtain ⟨h1, _⟩ := h
            subst h1
            exact ⟨by omega, fun _ => Or.inr rfl⟩
          · rename_i hnotpos hnotneg
            split at h
            · rename_i hneg
              simp only [Bool.and_eq_true, Bool.not_eq_true', decide_eq_true_eq,
                not_and, Bool.not_eq_true] at hnotneg
              have hle : ¬ (2147483648 < value) := hnotneg hneg
              simp only [Option.some.injEq, Prod.mk.injEq] at h
              obtain ⟨h1, h2⟩ := h
              subst h1
              refine ⟨by omega, fun hf => ?_⟩
              rw [← h2] at hf
              cases hf
            · rename_i hneg
              simp only [Bool.and_eq_true, Bool.not_eq_true', decide_eq_true_eq,
                not_and, Bool.not_eq_true] at hnotpos
              simp only [Bool.not_eq_true] at hneg
              have hlt : ¬ (2147483648 ≤ value) := hnotpos hneg
              simp only [Option.some.injEq, Prod.mk.injEq] at h
              obtain ⟨h1, h2⟩ := h
              subst h1
              refine ⟨by omega, fun hf => ?_⟩
              rw [← h2] at hf
              cases hf

/-- C6: integer parsing.  `0x1F` auto-detects to 31, `017` to 15 (octal),
`-5` to -5; auto detection behaves as forcing base 16 on a `0x`/`0X`
prefix, base 8 on a leading zero, base 10 otherwise; a string is rejected
iff, past sign and prefix, it is empty or holds a non-digit of the
active base; overflow is sticky and saturates the unsigned result to
0xFFFFFFFF (e.g. `4294967296`); `cp_integer` stays within and saturates
to the signed 32-bit bounds. -/
theorem cp_unsigned_integer_parsing :
    cp_unsigned 0 (bytes "0x1F") = some (31, false) ∧
    cp_unsigned 0 (bytes "017") = some (15, false) ∧
    cp_integer (-1) (bytes "-5") = some (-5, false) ∧
    (∀ s, hex_prefixed s = true → cp_unsigned 0 s = cp_unsigned 16 s) ∧
    (∀ s, hex_prefixed s = false → leading_zero s = true →
      cp_unsigned 0 s = cp_unsigned 8 s) ∧
    (∀ s, hex_prefixed s = false → leading_zero s = false →
      cp_unsigned 0 s = cp_unsigned 10 s) ∧
    (∀ b s, cp_unsigned b s = none ↔
      good_digits (cp_unsigned_base b s).2 (s.drop (cp_unsigned_base b s).1) = false) ∧
    (∀ b s v, cp_unsigned b s = some (v, true) → v = 4294967295) ∧
    cp_unsigned 0 (bytes "4294967296") = some (4294967295, true) ∧
    (∀ b s v f, cp_integer b s = some (v, f) →
      (-2147483648 ≤ v ∧ v ≤ 2147483647) ∧
        (f = true → v = 2147483647 ∨ v = -2147483648)) ∧
    cp_integer (-1) (bytes "2147483648") = some (2147483647, true) ∧
    cp_integer (-1) (bytes "-2147483649") = some (-2147483648, true) :=
  ⟨by decide, by decide, by decide, cp_unsigned_auto_hex, cp_unsigned_auto_octal,
    cp_unsigned_auto_decimal, cp_unsigned_reject_iff, cp_unsigned_overflow_sat,
    by decide, cp_integer_saturates, by decide, by decide⟩

/-- C6 witness: the universally quantified clauses applied at concrete
inputs, hypotheses discharged by computation. -/
theorem cp_unsigned_integer_parsing_witness :
    cp_unsigned 0 (bytes "0x1F") = cp_unsigned 16 (bytes "0x1F") ∧
    cp_unsigned 0 (bytes "017") = cp_unsigned 8 (bytes "017") ∧
    cp_unsigned 0 (bytes "99") = cp_unsigned 10 (bytes "99") ∧
    (4294967295 : Nat) = 4294967295 ∧
    ((-2147483648 ≤ (-2147483648 : Int) ∧ (-2147483648 : Int) ≤ 2147483647) ∧
      (true = true → (-2147483648 : Int) = 2147483647 ∨ (-2147483648 : Int) = -2147483648)) := by
  obtain ⟨_, _, _, h4, h5, h6, _, h8, _, h10, _, _⟩ := cp_unsigned_integer_parsing
  exact ⟨h4 (bytes "0x1F") (by decide), h5 (bytes "017") (by decide) (by decide),
    h6 (bytes "99") (by decide) (by decide),
    h8 0 (bytes "4294967296") 4294967295 (by decide),
    h10 (-1) (bytes "-2147483649") (-2147483648) true (by decide)⟩

theorem no_comment_tail {a : Nat} {t : List Nat} (h : no_comment (a :: t) = true) :
    no_comment t = true := by
  cases t with
  | nil => rfl
  | cons b t' =>
    rw [no_comment] at h
    simp only [Bool.and_eq_true] at h
    exact h.2

theorem no_comment_comment_at {s : List Nat} (h : no_comment s = true) :
    ∀ i, comment_at s i = false := by
  induction s with
  | nil =>
    intro i
    simp [comment_at]
  | cons a t ih =>
    intro i
    cases i with
    | zero =>
      cases t with
      | nil =>
        simp [comment_at]
      | cons b t' =>
        rw [no_comment] at h
        simp only [Bool.and_eq_true] at h
        have h1 := h.1
        unfold comment_at
        simp only [List.getD_cons_zero, List.getD_cons_succ, List.length_cons]
        simp only [Bool.not_eq_true', Bool.and_eq_false_iff] at h1
        rcases h1 with h1 | h1
        · simp [h1]
        · simp [h1]
    | succ i =>
      have heq : comment_at (a :: t) (i + 1) = comment_at t i := by
        unfold comment_at
        simp only [List.getD_cons_succ, List.length_cons]
        have : decide (i + 1 < t.length + 1 - 1) = decide (i < t.length - 1) := by
          apply decide_eq_decide.mpr
          omega
        rw [this]
      rw [heq]
      exact ih (no_comment_tail h) i

theorem ssq_loop_bounds (s : List Nat) :
    ∀ fuel pos, pos ≤ s.length →
      pos ≤ skip_single_quote_loop s fuel pos ∧ skip_single_quote_loop s fuel pos ≤ s.length := by
  intro fuel
  induction fuel with
  | zero => intro pos h; exact ⟨le_refl _, by rw [skip_single_quote_loop]; exact h⟩
  | succ n ih =>
    intro pos h
    rw [skip_single_quote_loop]
    by_cases hlt : pos < s.length
    · simp only [hlt, if_true]
      split
      · omega
      · have := ih (pos + 1) (by omega)
        omega
    · simp only [hlt, if_false]
      omega

theorem sbal_loop_bounds (s : List Nat) (hnc : no_comment s = true) :
    ∀ fuel pos, pos ≤ s.length →
      pos ≤ skip_backslash_angle_loop s fuel pos ∧
        skip_backslash_angle_loop s fuel pos ≤ s.length := by
  intro fuel
  induction fuel with
  | zero => intro pos h; exact ⟨le_refl _, by rw [skip_backslash_angle_loop]; exact h⟩
  | succ n ih =>
    intro pos h
    rw [skip_backslash_angle_loop]
    by_cases hlt : pos < s.length
    · simp only [hlt, if_true]
      split
      · omega
      · rw [no_comment_comment_at hnc pos]
        simp only [Bool.false_eq_true, if_false]
        have := ih (pos + 1) (by omega)
        omega
    · simp only [hlt, if_false]
      omega

theorem sdq_loop_bounds (s : List Nat) (hnc : no_comment s = true) :
    ∀ fuel pos, pos ≤ s.length →
      pos ≤ skip_double_quote_loop s fuel pos ∧
        skip_double_quote_loop s fuel pos ≤ s.length := by
  intro fuel
  induction fuel with
  | zero => intro pos h; exact ⟨le_refl _, by rw [skip_double_quote_loop]; exact h⟩
  | succ n ih =>
    intro pos h
    rw [skip_double_quote_loop]
    by_cases hlt : pos < s.length
    · simp only [hlt, if_true]
      split
      · rename_i hbs
        simp only [Bool.and_eq_true, decide_eq_true_eq] at hbs
        split
        · have hb := sbal_loop_bounds s hnc (s.length + 1) (pos + 2) (by omega)
          unfold skip_backslash_angle
          have := ih (skip_backslash_angle_loop s (s.length + 1) (pos + 2)) (by omega)
          omega
        · have := ih (pos + 2) (by omega)
          omega
      · split
        · omega
        · have := ih (pos + 1) (by omega)
          omega
    · simp only [hlt, if_false]
      omega

theorem puc_loop_id (s : List Nat) (hnc : no_comment s = true)
    (hlast : cIsSpace (s.getD (s.length - 1) 0) = false) :
    ∀ fuel i left right, s.length ≤ i + fuel → i ≤ s.length → left ≤ s.length →
      (i = s.length → right = s.length) →
      puc_loop s false fuel i left right false [] =
        (substr s left (s.length - left), s.length) := by
  intro fuel
  induction fuel with
  | zero =>
    intro i left right hf hi _ hr
    have hieq : i = s.length := by omega
    rw [puc_loop, hr hieq, hieq]
    simp
  | succ n ih =>
    intro i left right hf hi hleft hr
    by_cases hlt : i < s.length
    · rw [puc_loop]
      simp only [hlt, if_true]
      by_cases hsp : cIsSpace (s.getD i 0) = true
      · simp only [hsp, if_true]
        have hne : i ≠ s.length - 1 := by
          intro hcon
          rw [← hcon] at hlast
          rw [hsp] at hlast
          cases hlast
        exact ih (i + 1) left right (by omega) (by omega) hleft (by omega)
      · simp only [hsp]
        rw [Bool.not_eq_true] at hsp
        simp only [hsp, Bool.false_eq_true, if_false]
        rw [no_comment_comment_at hnc i]
        simp only [Bool.false_eq_true, if_false]
        simp only [Bool.and_false, Bool.false_eq_true, if_false]
        have hj : i + 1 ≤ (if s.getD i 0 == 39 then skip_single_quote s i
            else if s.getD i 0 == 34 then skip_double_quote s i
            else if s.getD i 0 == 92 && i < s.length - 1 && s.getD (i + 1) 0 == 60 then
              skip_backslash_angle s i
            else i + 1) ∧
            (if s.getD i 0 == 39 then skip_single_quote s i
            else if s.getD i 0 == 34 then skip_double_quote s i
            else if s.getD i 0 == 92 && i < s.length - 1 && s.getD (i + 1) 0 == 60 then
              skip_backslash_angle s i
            else i + 1) ≤ s.length := by
          split
          · unfold skip_single_quote
            have := ssq_loop_bounds s (s.length + 1) (i + 1) (by omega)
            omega
          · split
            · unfold skip_double_quote
              have := sdq_loop_bounds s hnc (s.length + 1) (i + 1) (by omega)
              omega
            · split
              · rename_i hcond
                simp only [Bool.and_eq_true, decide_eq_true_eq] at hcond
                unfold skip_backslash_angle
                have := sbal_loop_bounds s hnc (s.length + 1) (i + 2) (by omega)
                omega
              · omega
        exact ih _ left _ (by omega) (by omega) hleft (by omega)
    · have hieq : i = s.length := by omega
      rw [puc_loop]
      simp only [hlt, if_false]
      rw [hr hieq, hieq]
      simp

theorem puc_skip_initial_id (s : List Nat) (hnc : no_comment s = true)
    (hfirst : cIsSpace (s.getD 0 0) = false) :
    ∀ fuel, puc_skip_initial s fuel 0 = 0 := by
  intro fuel
  cases fuel with
  | zero => rfl
  | succ n =>
    rw [puc_skip_initial]
    by_cases hlt : 0 < s.length
    · simp only [hlt, if_true]
      rw [no_comment_comment_at hnc 0]
      simp only [Bool.false_eq_true, if_false, hfirst]
    · simp [hlt]

theorem cp_uncomment_id (s : List Nat) (hnc : no_comment s = true)
    (hfirst : cIsSpace (s.getD 0 0) = false)
    (hlast : cIsSpace (s.getD (s.length - 1) 0) = false) :
    cp_uncomment s = s := by
  unfold cp_uncomment partial_uncomment
  rw [puc_skip_initial_id s hnc hfirst]
  rw [puc_loop_id s hnc hlast (s.length + 1) 0 0 0 (by omega) (by omega) (by omega)
    (by intro h; omega)]
  simp [substr]

theorem unquote_loop_id (s : List Nat)
    (hplain : ∀ i, i < s.length → ¬(s.getD i 0 = 34 ∨ s.getD i 0 = 39 ∨ s.getD i 0 = 92)) :
    ∀ fuel i, s.length ≤ i + fuel → i ≤ s.length →
      unquote_loop s fuel i 0 0 [] = (s.length, 0, []) := by
  intro fuel
  induction fuel with
  | zero =>
    intro i hf hi
    have : i = s.length := by omega
    subst this
    rfl
  | succ n ih =>
    intro i hf hi
    by_cases hlt : i < s.length
    · rw [unquote_loop]
      simp only [hlt, if_true]
      have hp := hplain i hlt
      have h34 : (s.getD i 0 == 34) = false :=
        beq_eq_false_iff_ne.mpr (fun hc => hp (Or.inl hc))
      have h39 : (s.getD i 0 == 39) = false :=
        beq_eq_false_iff_ne.mpr (fun hc => hp (Or.inr (Or.inl hc)))
      have h92 : (s.getD i 0 == 92) = false :=
        beq_eq_false_iff_ne.mpr (fun hc => hp (Or.inr (Or.inr hc)))
      simp only [h34, h39, h92, Bool.or_self, Bool.false_or, Bool.false_and,
        Bool.false_eq_true, if_false]
      exact ih (i + 1) (by omega) (by omega)
    · have : i = s.length := by omega
      subst this
      rw [unquote_loop]
      simp [hlt]

theorem cp_unquote_word_id (s : List Nat) (hw : cp_is_word s = true)
    (hbs : s.contains 92 = false) (hnc : no_comment s = true) :
    cp_unquote s = s := by
  have hflat : ∀ i, i < s.length →
      s.getD i 0 ≠ 34 ∧ s.getD i 0 ≠ 39 ∧ ¬ (s.getD i 0 ≤ 32) ∧ s.getD i 0 ≠ 92 := by
    intro i hi
    have hmem : s.getD i 0 ∈ s := by
      rw [List.getD_eq_getElem s 0 hi]
      exact List.getElem_mem hi
    unfold cp_is_word at hw
    simp only [Bool.and_eq_true, List.all_eq_true] at hw
    have h1 := hw.1 _ hmem
    simp only [Bool.not_eq_true', Bool.or_eq_false_iff, beq_eq_false_iff_ne,
      decide_eq_false_iff_not] at h1
    refine ⟨h1.1.1.1.1, h1.1.1.1.2, h1.1.2, ?_⟩
    intro hc
    rw [List.contains_eq_any_beq] at hbs
    simp only [List.any_eq_false] at hbs
    have h2 := hbs _ hmem
    rw [hc] at h2
    exact h2 rfl
  have hchars : ∀ i, i < s.length →
      ¬(s.getD i 0 = 34 ∨ s.getD i 0 = 39 ∨ s.getD i 0 = 92) := by
    intro i hi
    have := hflat i hi
    tauto
  have hspace : ∀ i, i < s.length → cIsSpace (s.getD i 0) = false := by
    intro i hi
    have h32 := (hflat i hi).2.2.1
    unfold cIsSpace
    have e1 : (s.getD i 0 == 32) = false := beq_eq_false_iff_ne.mpr (by omega)
    have e2 : (decide (s.getD i 0 ≤ 13)) = false := decide_eq_false (by omega)
    rw [e1, e2]
    simp
  have hlen : 0 < s.length := by
    unfold cp_is_word at hw
    simp only [Bool.and_eq_true, decide_eq_true_eq] at hw
    exact hw.2
  have hfirst : cIsSpace (s.getD 0 0) = false := hspace 0 hlen
  have hlast : cIsSpace (s.getD (s.length - 1) 0) = false := hspace _ (by omega)
  have hpu : (partial_uncomment s 0 false).1 = s := by
    unfold partial_uncomment
    rw [puc_skip_initial_id s hnc hfirst]
    rw [puc_loop_id s hnc hlast (s.length + 1) 0 0 0 (by omega) (by omega) (by omega)
      (by intro h; omega)]
    simp [substr]
  unfold cp_unquote
  rw [hpu]
  dsimp only
  rw [unquote_loop_id s hchars (s.length + 1) 0 (by omega) (by omega)]
  simp

/-- C8 counterexample: the text consisting of a space and `a` contains no
comment, yet `cp_uncomment` trims the leading whitespace and returns just
`a`, so uncommenting comment-free text is not the identity. -/
theorem cp_uncomment_whitespace_counterexample :
    no_comment (bytes " a") = true ∧ cp_uncomment (bytes " a") ≠ bytes " a" := by
  decide

/-- C8 (amended): `cp_unquote` returns unchanged every word (in the
source's `cp_is_word` sense) holding no backslash and no comment; and
`cp_uncomment` returns unchanged every text holding no comment and
neither leading nor trailing whitespace (leading and trailing whitespace
is trimmed, so the claim's unrestricted form fails). -/
theorem cp_unquote_uncomment_idempotence :
    (∀ s, cp_is_word s = true → s.contains 92 = false → no_comment s = true →
      cp_unquote s = s) ∧
    (∀ s, no_comment s = true → cIsSpace (s.getD 0 0) = false →
      cIsSpace (s.getD (s.length - 1) 0) = false → cp_uncomment s = s) :=
  ⟨cp_unquote_word_id, cp_uncomment_id⟩

/-- C8 amended witness: both idempotence clauses at concrete inputs. -/
theorem cp_unquote_uncomment_idempotence_witness :
    cp_unquote (bytes "a/b.c") = bytes "a/b.c" ∧ cp_uncomment (bytes "a b") = bytes "a b" :=
  ⟨cp_unquote_uncomment_idempotence.1 (bytes "a/b.c") (by decide) (by decide) (by decide),
   cp_unquote_uncomment_idempotence.2 (bytes "a b") (by decide) (by decide) (by decide)⟩

/-- Indexing into a dropped list. -/
theorem getD_drop (s : List Nat) (i k : Nat) : (s.drop i).getD k 0 = s.getD (i + k) 0 := by
  rw [List.getD_eq_getElem?_getD, List.getD_eq_getElem?_getD, List.getElem?_drop]

/-- Dropping one more element after a known drop. -/
theorem drop_succ_of_drop (s : List Nat) (i : Nat) {a : Nat} {t : List Nat}
    (h : s.drop i = a :: t) : s.drop (i + 1) = t := by
  have h2 : s.drop (i + 1) = (s.drop i).drop 1 := by
    rw [List.drop_drop]
  rw [h2, h]
  rfl

/-- Extending a substring by one byte picks up the byte at its end. -/
theorem substr_extend (s : List Nat) (start i : Nat) (h1 : start ≤ i) (h2 : i < s.length) :
    substr s start (i + 1 - start) = substr s start (i - start) ++ [s.getD i 0] := by
  unfold substr
  have he : i + 1 - start = (i - start) + 1 := by omega
  rw [he, List.take_succ]
  congr 1
  rw [List.getElem?_drop]
  have he2 : start + (i - start) = i := by omega
  rw [he2, List.getElem?_eq_getElem h2]
  rw [List.getD_eq_getElem s 0 h2]
  rfl

/-- A drop at an in-range index starts with the byte there. -/
theorem drop_cons_getD (s : List Nat) (i : Nat) (h : i < s.length) :
    s.drop i = s.getD i 0 :: s.drop (i + 1) := by
  rw [List.getD_eq_getElem s 0 h]
  exact List.drop_eq_getElem_cons h

/-- Main loop of `cp_quote` (newlines escaped) produces the pending
substring, then the structural encoding of the rest, then the closing
quote. -/
theorem quote_loop_qenc (s : List Nat) :
    ∀ fuel i start sa, s.length ≤ i + fuel → i ≤ s.length → start ≤ i →
      quote_loop s false fuel i start sa =
        sa ++ substr s start (i - start) ++ qenc (s.drop i) ++ [34] := by
  intro fuel
  induction fuel with
  | zero =>
    intro i start sa hf hi hs
    have hieq : i = s.length := by omega
    subst hieq
    rw [quote_loop, List.drop_length]
    simp [qenc]
  | succ n ih =>
    intro i start sa hf hi hs
    by_cases hlt : i < s.length
    · rw [quote_loop, if_pos hlt]
      rw [drop_cons_getD s i hlt, qenc]
      by_cases h1 : (s.getD i 0 == 92 || s.getD i 0 == 34 || s.getD i 0 == 36) = true
      · rw [if_pos h1, ih (i + 1) (i + 1) _ (by omega) (by omega) (by omega)]
        rw [qenc1, if_pos h1]
        simp [substr]
      · rw [if_neg h1]
        by_cases h2 : (s.getD i 0 == 9) = true
        · rw [if_pos h2, ih (i + 1) (i + 1) _ (by omega) (by omega) (by omega)]
          rw [qenc1, if_neg h1, if_pos h2]
          simp [substr]
        · rw [if_neg h2]
          by_cases h3 : (s.getD i 0 == 13) = true
          · rw [if_pos h3, ih (i + 1) (i + 1) _ (by omega) (by omega) (by omega)]
            rw [qenc1, if_neg h1, if_neg h2, if_pos h3]
            simp [substr]
          · rw [if_neg h3]
            by_cases h4 : (s.getD i 0 == 10) = true
            · rw [if_pos h4, if_pos (show (!false) = true from rfl),
                ih (i + 1) (i + 1) _ (by omega) (by omega) (by omega)]
              rw [qenc1, if_neg h1, if_neg h2, if_neg h3, if_pos h4]
              simp [substr]
            · rw [if_neg h4]
              by_cases h5 : (s.getD i 0 < 32 || 127 ≤ s.getD i 0) = true
              · rw [if_pos h5, ih (i + 1) (i + 1) _ (by omega) (by omega) (by omega)]
                rw [qenc1, if_neg h1, if_neg h2, if_neg h3, if_neg h4, if_pos h5]
                simp [substr]
              · rw [if_neg h5, ih (i + 1) start sa (by omega) (by omega) (by omega)]
                rw [qenc1, if_neg h1, if_neg h2, if_neg h3, if_neg h4, if_neg h5]
                rw [substr_extend s start i hs hlt]
                simp
    · have hieq : i = s.length := by omega
      subst hieq
      rw [quote_loop, if_neg hlt, List.drop_length]
      simp [qenc]

/-- Structural form of `cp_quote` with newlines escaped: opening quote,
per-byte encoding, closing quote. -/
theorem cp_quote_qenc (s : List Nat) : cp_quote s false = 34 :: (qenc s ++ [34]) := by
  unfold cp_quote
  by_cases h : (s.length == 0) = true
  · have hnil : s = [] := by
      simpa using h
    subst hnil
    rfl
  · rw [if_neg h]
    rw [quote_loop_qenc s (s.length + 1) 0 0 [] (by omega) (by omega) (by omega)]
    simp [substr]

/-- Head byte of a known drop. -/
theorem getD_of_drop {q : List Nat} {pos x : Nat} {r : List Nat}
    (h : q.drop pos = x :: r) : q.getD pos 0 = x := by
  have h2 := getD_drop q pos 0
  rw [h] at h2
  simpa using h2.symm

/-- A drop with a cons shape means the index is in range. -/
theorem lt_length_of_drop {q : List Nat} {pos x : Nat} {r : List Nat}
    (h : q.drop pos = x :: r) : pos < q.length := by
  by_contra hc
  push_neg at hc
  rw [List.drop_eq_nil_iff.mpr hc] at h
  exact List.noConfusion h

/-- A false condition is not true (for `if_neg`). -/
theorem cond_ne_true {b : Bool} (h : b = false) : ¬(b = true) := by
  rw [h]; simp

/-- Scanning an encoded body with `skip_double_quote_loop` runs to the
closing quote: every escape starts with a backslash that is never `\<`,
and no plain encoded byte is an unescaped `"`. -/
theorem sdq_loop_qenc (q : List Nat) :
    ∀ s0 : List Nat, (∀ c ∈ s0, c < 256) → ∀ pos fuel,
      q.drop pos = qenc s0 ++ [34] → (qenc s0).length + 2 ≤ fuel →
      skip_double_quote_loop q fuel pos = q.length := by
  intro s0
  induction s0 with
  | nil =>
    intro _ pos fuel hd hf
    simp only [qenc, List.nil_append] at hd
    obtain ⟨f, rfl⟩ : ∃ f, fuel = f + 1 := ⟨fuel - 1, by omega⟩
    have hx : q.getD pos 0 = 34 := getD_of_drop hd
    have hlt : pos < q.length := lt_length_of_drop hd
    have hlen : q.length - pos = 1 := by
      have h2 := congrArg List.length hd
      rw [List.length_drop] at h2
      simpa using h2
    rw [skip_double_quote_loop, if_pos hlt]
    have hc : (pos < q.length - 1 && q.getD pos 0 == 92) = false := by
      rw [hx]; simp
    rw [if_neg (cond_ne_true hc)]
    have hc34 : (q.getD pos 0 == 34) = true := by rw [hx]; rfl
    rw [if_pos hc34]
    omega
  | cons c t ih =>
    intro hmem pos fuel hd hf
    have hc256 : c < 256 := hmem c (List.mem_cons_self c t)
    have hmem' : ∀ x ∈ t, x < 256 := fun x hx => hmem x (List.mem_cons_of_mem c hx)
    rw [show qenc (c :: t) = qenc1 c ++ qenc t from rfl, List.append_assoc] at hd
    rw [show qenc (c :: t) = qenc1 c ++ qenc t from rfl, List.length_append] at hf
    by_cases h1 : (c == 92 || c == 34 || c == 36) = true
    · have he : qenc1 c = [92, c] := by rw [qenc1, if_pos h1]
      rw [he] at hd hf
      simp only [List.cons_append, List.nil_append] at hd
      simp only [List.length_cons, List.length_nil] at hf
      have hx0 : q.getD pos 0 = 92 := getD_of_drop hd
      have hlt : pos < q.length := lt_length_of_drop hd
      have hd1 : q.drop (pos + 1) = c :: (qenc t ++ [34]) := drop_succ_of_drop q pos hd
      have hx1 : q.getD (pos + 1) 0 = c := getD_of_drop hd1
      have hd2 : q.drop (pos + 2) = qenc t ++ [34] := by
        rw [show pos + 2 = pos + 1 + 1 from rfl]
        exact drop_succ_of_drop q (pos + 1) hd1
      have hlen : q.length - pos = (qenc t).length + 3 := by
        have h2 := congrArg List.length hd
        rw [List.length_drop] at h2
        simp at h2
        omega
      obtain ⟨f, rfl⟩ : ∃ f, fuel = f + 1 := ⟨fuel - 1, by omega⟩
      rw [skip_double_quote_loop, if_pos hlt]
      have hcond : (pos < q.length - 1 && q.getD pos 0 == 92) = true := by
        rw [hx0]
        simp only [Bool.and_eq_true, decide_eq_true_eq]
        exact ⟨by omega, rfl⟩
      rw [if_pos hcond]
      have h60 : (q.getD (pos + 1) 0 == 60) = false := by
        rw [hx1]
        have h3 : (c = 92 ∨ c = 34) ∨ c = 36 := by simpa using h1
        rcases h3 with (h | h) | h <;> subst h <;> rfl
      rw [if_neg (cond_ne_true h60)]
      exact ih hmem' (pos + 2) f hd2 (by omega)
    · by_cases h2 : (c == 9) = true
      · have hc9 : c = 9 := by simpa using h2
        subst hc9
        have he : qenc1 9 = [92, 116] := rfl
        rw [he] at hd hf
        simp only [List.cons_append, List.nil_append] at hd
        simp only [List.length_cons, List.length_nil] at hf
        have hx0 : q.getD pos 0 = 92 := getD_of_drop hd
        have hlt : pos < q.length := lt_length_of_drop hd
        have hd1 : q.drop (pos + 1) = 116 :: (qenc t ++ [34]) := drop_succ_of_drop q pos hd
        have hx1 : q.getD (pos + 1) 0 = 116 := getD_of_drop hd1
        have hd2 : q.drop (pos + 2) = qenc t ++ [34] := by
          rw [show pos + 2 = pos + 1 + 1 from rfl]
          exact drop_succ_of_drop q (pos + 1) hd1
        have hlen : q.length - pos = (qenc t).length + 3 := by
          have hl2 := congrArg List.length hd
          rw [List.length_drop] at hl2
          simp at hl2
          omega
        obtain ⟨f, rfl⟩ : ∃ f, fuel = f + 1 := ⟨fuel - 1, by omega⟩
        rw [skip_double_quote_loop, if_pos hlt]
        have hcond : (pos < q.length - 1 && q.getD pos 0 == 92) = true := by
          rw [hx0]
          simp only [Bool.and_eq_true, decide_eq_true_eq]
          exact ⟨by omega, rfl⟩
        rw [if_pos hcond]
        have h60 : (q.getD (pos + 1) 0 == 60) = false := by rw [hx1]; rfl
        rw [if_neg (cond_ne_true h60)]
        exact ih hmem' (pos + 2) f hd2 (by omega)
      · by_cases h3 : (c == 13) = true
        · have hc13 : c = 13 := by simpa using h3
          subst hc13
          have he : qenc1 13 = [92, 114] := rfl
          rw [he] at hd hf
          simp only [List.cons_append, List.nil_append] at hd
          simp only [List.length_cons, List.length_nil] at hf
          have hx0 : q.getD pos 0 = 92 := getD_of_drop hd
          have hlt : pos < q.length := lt_length_of_drop hd
          have hd1 : q.drop (pos + 1) = 114 :: (qenc t ++ [34]) := drop_succ_of_drop q pos hd
          have hx1 : q.getD (pos + 1) 0 = 114 := getD_of_drop hd1
          have hd2 : q.drop (pos + 2) = qenc t ++ [34] := by
            rw [show pos + 2 = pos + 1 + 1 from rfl]
            exact drop_succ_of_drop q (pos + 1) hd1
          have hlen : q.length - pos = (qenc t).length + 3 := by
            have hl2 := congrArg List.length hd
            rw [List.length_drop] at hl2
            simp at hl2
            omega
          obtain ⟨f, rfl⟩ : ∃ f, fuel = f + 1 := ⟨fuel - 1, by omega⟩
          rw [skip_double_quote_loop, if_pos hlt]
          have hcond : (pos < q.length - 1 && q.getD pos 0 == 92) = true := by
            rw [hx0]
            simp only [Bool.and_eq_true, decide_eq_true_eq]
            exact ⟨by omega, rfl⟩
          rw [if_pos hcond]
          have h60 : (q.getD (pos + 1) 0 == 60) = false := by rw [hx1]; rfl
          rw [if_neg (cond_ne_true h60)]
          exact ih hmem' (pos + 2) f hd2 (by omega)
        · by_cases h4 : (c == 10) = true
          · have hc10 : c = 10 := by simpa using h4
            subst hc10
            have he : qenc1 10 = [92, 110] := rfl
            rw [he] at hd hf
            simp only [List.cons_append, List.nil_append] at hd
            simp only [List.length_cons, List.length_nil] at hf
            have hx0 : q.getD pos 0 = 92 := getD_of_drop hd
            have hlt : pos < q.length := lt_length_of_drop hd
            have hd1 : q.drop (pos + 1) = 110 :: (qenc t ++ [34]) := drop_succ_of_drop q pos hd
            have hx1 : q.getD (pos + 1) 0 = 110 := getD_of_drop hd1
            have hd2 : q.drop (pos + 2) = qenc t ++ [34] := by
              rw [show pos + 2 = pos + 1 + 1 from rfl]
              exact drop_succ_of_drop q (pos + 1) hd1
            have hlen : q.length - pos = (qenc t).length + 3 := by
              have hl2 := congrArg List.length hd
              rw [List.length_drop] at hl2
              simp at hl2
              omega
            obtain ⟨f, rfl⟩ : ∃ f, fuel = f + 1 := ⟨fuel - 1, by omega⟩
            rw [skip_double_quote_loop, if_pos hlt]
            have hcond : (pos < q.length - 1 && q.getD pos 0 == 92) = true := by
              rw [hx0]
              simp only [Bool.and_eq_true, decide_eq_true_eq]
              exact ⟨by omega, rfl⟩
            rw [if_pos hcond]
            have h60 : (q.getD (pos + 1) 0 == 60) = false := by rw [hx1]; rfl
            rw [if_neg (cond_ne_true h60)]
            exact ih hmem' (pos + 2) f hd2 (by omega)
          · by_cases h5 : (c < 32 || 127 ≤ c) = true
            · have he : qenc1 c = [92, 48 + c / 64, 48 + c / 8 % 8, 48 + c % 8] := by
                rw [qenc1, if_neg h1, if_neg h2, if_neg h3, if_neg h4, if_pos h5]
              rw [he] at hd hf
              simp only [List.cons_append, List.nil_append] at hd
              simp only [List.length_cons, List.length_nil] at hf
              have hx0 : q.getD pos 0 = 92 := getD_of_drop hd
              have hlt : pos < q.length := lt_length_of_drop hd
              have hd1 : q.drop (pos + 1) = (48 + c / 64) :: ((48 + c / 8 % 8) :: ((48 + c % 8) :: (qenc t ++ [34]))) :=
                drop_succ_of_drop q pos hd
              have hx1 : q.getD (pos + 1) 0 = 48 + c / 64 := getD_of_drop hd1
              have hd2 : q.drop (pos + 2) = (48 + c / 8 % 8) :: ((48 + c % 8) :: (qenc t ++ [34])) := by
                rw [show pos + 2 = pos + 1 + 1 from rfl]
                exact drop_succ_of_drop q (pos + 1) hd1
              have hx2 : q.getD (pos + 2) 0 = 48 + c / 8 % 8 := getD_of_drop hd2
              have hd3 : q.drop (pos + 2 + 1) = (48 + c % 8) :: (qenc t ++ [34]) :=
                drop_succ_of_drop q (pos + 2) hd2
              have hx3 : q.getD (pos + 2 + 1) 0 = 48 + c % 8 := getD_of_drop hd3
              have hd4 : q.drop (pos + 2 + 1 + 1) = qenc t ++ [34] :=
                drop_succ_of_drop q (pos + 2 + 1) hd3
              have hlen : q.length - pos = (qenc t).length + 5 := by
                have hl2 := congrArg List.length hd
                rw [List.length_drop] at hl2
                simp at hl2
                omega
              obtain ⟨f, rfl⟩ : ∃ f, fuel = f + 1 + 1 + 1 := ⟨fuel - 3, by omega⟩
              rw [skip_double_quote_loop, if_pos hlt]
              have hcond : (pos < q.length - 1 && q.getD pos 0 == 92) = true := by
                rw [hx0]
                simp only [Bool.and_eq_true, decide_eq_true_eq]
                exact ⟨by omega, rfl⟩
              rw [if_pos hcond]
              have h60 : (q.getD (pos + 1) 0 == 60) = false := by
                rw [hx1]
                exact beq_eq_false_iff_ne.mpr (by omega)
              rw [if_neg (cond_ne_true h60)]
              rw [skip_double_quote_loop, if_pos (show pos + 2 < q.length from by omega)]
              have hb2 : (q.getD (pos + 2) 0 == 92) = false := by
                rw [hx2]
                exact beq_eq_false_iff_ne.mpr (by omega)
              have hcond2 : (pos + 2 < q.length - 1 && q.getD (pos + 2) 0 == 92) = false := by
                rw [hb2, Bool.and_false]
              rw [if_neg (cond_ne_true hcond2)]
              have hb2q : (q.getD (pos + 2) 0 == 34) = false := by
                rw [hx2]
                exact beq_eq_false_iff_ne.mpr (by omega)
              rw [if_neg (cond_ne_true hb2q)]
              rw [skip_double_quote_loop, if_pos (show pos + 2 + 1 < q.length from by omega)]
              have hb3 : (q.getD (pos + 2 + 1) 0 == 92) = false := by
                rw [hx3]
                exact beq_eq_false_iff_ne.mpr (by omega)
              have hcond3 : (pos + 2 + 1 < q.length - 1 && q.getD (pos + 2 + 1) 0 == 92) = false := by
                rw [hb3, Bool.and_false]
              rw [if_neg (cond_ne_true hcond3)]
              have hb3q : (q.getD (pos + 2 + 1) 0 == 34) = false := by
                rw [hx3]
                exact beq_eq_false_iff_ne.mpr (by omega)
              rw [if_neg (cond_ne_true hb3q)]
              exact ih hmem' (pos + 2 + 1 + 1) f hd4 (by omega)
            · have he : qenc1 c = [c] := by
                rw [qenc1, if_neg h1, if_neg h2, if_neg h3, if_neg h4, if_neg h5]
              rw [he] at hd hf
              simp only [List.cons_append, List.nil_append] at hd
              simp only [List.length_cons, List.length_nil] at hf
              obtain ⟨⟨hne92, hne34⟩, hne36⟩ : (¬c = 92 ∧ ¬c = 34) ∧ ¬c = 36 := by
                simpa [not_or] using h1
              have hx0 : q.getD pos 0 = c := getD_of_drop hd
              have hlt : pos < q.length := lt_length_of_drop hd
              have hd1 : q.drop (pos + 1) = qenc t ++ [34] := drop_succ_of_drop q pos hd
              obtain ⟨f, rfl⟩ : ∃ f, fuel = f + 1 := ⟨fuel - 1, by omega⟩
              rw [skip_double_quote_loop, if_pos hlt]
              have hb : (q.getD pos 0 == 92) = false := by
                rw [hx0]
                exact beq_eq_false_iff_ne.mpr hne92
              have hcond : (pos < q.length - 1 && q.getD pos 0 == 92) = false := by
                rw [hb, Bool.and_false]
              rw [if_neg (cond_ne_true hcond)]
              have hbq : (q.getD pos 0 == 34) = false := by
                rw [hx0]
                exact beq_eq_false_iff_ne.mpr hne34
              rw [if_neg (cond_ne_true hbq)]
              exact ih hmem' (pos + 1) f hd1 (by omega)

/-- Evaluation of `process_backslash` on the two-character escapes the
quoter emits. -/
theorem process_backslash_two (q : List Nat) (pos x y : Nat)
    (hx : q.getD (pos + 1) 0 = x)
    (hxy : (x = 92 ∧ y = 92) ∨ (x = 34 ∧ y = 34) ∨ (x = 36 ∧ y = 36) ∨
      (x = 116 ∧ y = 9) ∨ (x = 114 ∧ y = 13) ∨ (x = 110 ∧ y = 10)) :
    process_backslash q pos = (pos + 2, [y]) := by
  have hx2 : q[pos + 1]?.getD 0 = x := by
    rw [← List.getD_eq_getElem?_getD]
    exact hx
  rcases hxy with ⟨hx1, hy⟩ | ⟨hx1, hy⟩ | ⟨hx1, hy⟩ | ⟨hx1, hy⟩ | ⟨hx1, hy⟩ | ⟨hx1, hy⟩ <;>
    subst hx1 <;> subst hy <;> simp [process_backslash, hx2]

/-- Evaluation of the octal-digit loop on exactly three octal digits. -/
theorem pb_octal_eval (q : List Nat) (pos a b d : Nat)
    (h1 : q.getD (pos + 1) 0 = 48 + a) (ha : a ≤ 7)
    (h2 : q.getD (pos + 1 + 1) 0 = 48 + b) (hb : b ≤ 7)
    (h3 : q.getD (pos + 1 + 1 + 1) 0 = 48 + d) (hd : d ≤ 7)
    (hlen : pos + 4 ≤ q.length) :
    pb_octal_loop q 3 (pos + 1) 0 = (pos + 1 + 1 + 1 + 1, (a * 8 + b) * 8 + d) := by
  have hc1 : (pos + 1 < q.length && 48 ≤ q.getD (pos + 1) 0 && q.getD (pos + 1) 0 ≤ 55) = true := by
    rw [h1]
    simp only [Bool.and_eq_true, decide_eq_true_eq]
    omega
  have hc2 : (pos + 1 + 1 < q.length && 48 ≤ q.getD (pos + 1 + 1) 0 && q.getD (pos + 1 + 1) 0 ≤ 55) = true := by
    rw [h2]
    simp only [Bool.and_eq_true, decide_eq_true_eq]
    omega
  have hc3 : (pos + 1 + 1 + 1 < q.length && 48 ≤ q.getD (pos + 1 + 1 + 1) 0 && q.getD (pos + 1 + 1 + 1) 0 ≤ 55) = true := by
    rw [h3]
    simp only [Bool.and_eq_true, decide_eq_true_eq]
    omega
  show pb_octal_loop q (0 + 1 + 1 + 1) (pos + 1) 0 = _
  rw [pb_octal_loop, if_pos hc1, pb_octal_loop, if_pos hc2, pb_octal_loop, if_pos hc3,
    pb_octal_loop, h1, h2, h3]
  congr 1
  omega

/-- Evaluation of `process_backslash` on a three-digit octal escape of a
byte `c < 256`: it consumes the three digits and emits `c`. -/
theorem process_backslash_octal (q : List Nat) (pos c : Nat) (hc : c < 256)
    (h1 : q.getD (pos + 1) 0 = 48 + c / 64)
    (h2 : q.getD (pos + 1 + 1) 0 = 48 + c / 8 % 8)
    (h3 : q.getD (pos + 1 + 1 + 1) 0 = 48 + c % 8)
    (hlen : pos + 4 ≤ q.length) :
    process_backslash q pos = (pos + 4, [c]) := by
  have hoct := pb_octal_eval q pos (c / 64) (c / 8 % 8) (c % 8) h1 (by omega) h2 (by omega)
    h3 (by omega) hlen
  have h13 : ((48 + c / 64 : Nat) == 13) = false := beq_eq_false_iff_ne.mpr (by omega)
  have h10 : ((48 + c / 64 : Nat) == 10) = false := beq_eq_false_iff_ne.mpr (by omega)
  have h97 : ((48 + c / 64 : Nat) == 97) = false := beq_eq_false_iff_ne.mpr (by omega)
  have h98 : ((48 + c / 64 : Nat) == 98) = false := beq_eq_false_iff_ne.mpr (by omega)
  have h102 : ((48 + c / 64 : Nat) == 102) = false := beq_eq_false_iff_ne.mpr (by omega)
  have h110 : ((48 + c / 64 : Nat) == 110) = false := beq_eq_false_iff_ne.mpr (by omega)
  have h114 : ((48 + c / 64 : Nat) == 114) = false := beq_eq_false_iff_ne.mpr (by omega)
  have h116 : ((48 + c / 64 : Nat) == 116) = false := beq_eq_false_iff_ne.mpr (by omega)
  have h118 : ((48 + c / 64 : Nat) == 118) = false := beq_eq_false_iff_ne.mpr (by omega)
  have hrng : (48 ≤ (48 + c / 64 : Nat) && (48 + c / 64 : Nat) ≤ 55) = true := by
    simp only [Bool.and_eq_true, decide_eq_true_eq]
    omega
  rw [process_backslash]
  rw [h1, if_neg (cond_ne_true h13), if_neg (cond_ne_true h10), if_neg (cond_ne_true h97),
    if_neg (cond_ne_true h98), if_neg (cond_ne_true h102), if_neg (cond_ne_true h110),
    if_neg (cond_ne_true h114), if_neg (cond_ne_true h116), if_neg (cond_ne_true h118),
    if_pos hrng]
  dsimp only
  rw [hoct]
  dsimp only
  have e1 : pos + 1 + 1 + 1 + 1 = pos + 4 := by omega
  have e2 : ((c / 64 * 8 + c / 8 % 8) * 8 + c % 8) % 256 = c := by omega
  rw [e1, e2]

/-- Main decode loop of `cp_unquote` inside a double quote: scanning the
encoded image of `t` followed by the closing quote appends exactly the
pending substring and `t` to the accumulator and ends at the string
end. -/
theorem unquote_loop_qenc (q : List Nat) :
    ∀ t : List Nat, (∀ c ∈ t, c < 256) → ∀ pos start fuel sa,
      q.drop pos = qenc t ++ [34] → start ≤ pos →
      (qenc t).length + 2 ≤ fuel →
      unquote_loop q fuel pos start 34 sa =
        (q.length, q.length, sa ++ substr q start (pos - start) ++ t) := by
  intro t
  induction t with
  | nil =>
    intro _ pos start fuel sa hd hst hf
    simp only [qenc, List.nil_append] at hd
    obtain ⟨f, rfl⟩ : ∃ f, fuel = f + 1 + 1 := ⟨fuel - 2, by omega⟩
    have hx : q.getD pos 0 = 34 := getD_of_drop hd
    have hlt : pos < q.length := lt_length_of_drop hd
    have hlen : q.length - pos = 1 := by
      have h2 := congrArg List.length hd
      rw [List.length_drop] at h2
      simpa using h2
    rw [unquote_loop, if_pos hlt]
    have hqc : (q.getD pos 0 == 34 || q.getD pos 0 == 39) = true := by rw [hx]; rfl
    rw [if_pos hqc]
    rw [if_neg (show ¬((((34 : Nat)) == 0) = true) from by decide)]
    have hqq : ((34 : Nat) == q.getD pos 0) = true := by rw [hx]; rfl
    rw [if_pos hqq]
    rw [unquote_loop, if_neg (show ¬(pos + 1 < q.length) from by omega)]
    by_cases hss : start < pos
    · rw [if_pos hss]
      rw [show pos + 1 = q.length from by omega]
      simp
    · rw [if_neg hss]
      have h0 : pos - start = 0 := by omega
      rw [show pos + 1 = q.length from by omega, h0]
      simp [substr]
  | cons c t ih =>
    intro hmem pos start fuel sa hd hst hf
    have hc256 : c < 256 := hmem c (List.mem_cons_self c t)
    have hmem' : ∀ x ∈ t, x < 256 := fun x hx => hmem x (List.mem_cons_of_mem c hx)
    rw [show qenc (c :: t) = qenc1 c ++ qenc t from rfl, List.append_assoc] at hd
    rw [show qenc (c :: t) = qenc1 c ++ qenc t from rfl, List.length_append] at hf
    by_cases h1 : (c == 92 || c == 34 || c == 36) = true
    · have he : qenc1 c = [92, c] := by rw [qenc1, if_pos h1]
      rw [he] at hd hf
      simp only [List.cons_append, List.nil_append] at hd
      simp only [List.length_cons, List.length_nil] at hf
      have hx0 : q.getD pos 0 = 92 := getD_of_drop hd
      have hlt : pos < q.length := lt_length_of_drop hd
      have hd1 : q.drop (pos + 1) = c :: (qenc t ++ [34]) := drop_succ_of_drop q pos hd
      have hx1 : q.getD (pos + 1) 0 = c := getD_of_drop hd1
      have hd2 : q.drop (pos + 2) = qenc t ++ [34] := by
        rw [show pos + 2 = pos + 1 + 1 from rfl]
        exact drop_succ_of_drop q (pos + 1) hd1
      have hlen : q.length - pos = (qenc t).length + 3 := by
        have h2 := congrArg List.length hd
        rw [List.length_drop] at h2
        simp at h2
        omega
      obtain ⟨f, rfl⟩ : ∃ f, fuel = f + 1 := ⟨fuel - 1, by omega⟩
      rw [unquote_loop, if_pos hlt]
      have hqc : (q.getD pos 0 == 34 || q.getD pos 0 == 39) = false := by rw [hx0]; rfl
      rw [if_neg (cond_ne_true hqc)]
      have hesc : (q.getD pos 0 == 92 && pos < q.length - 1 &&
          ((34 : Nat) == 34 || ((34 : Nat) == 0 && q.getD (pos + 1) 0 == 60))) = true := by
        rw [hx0]
        simp only [Bool.and_eq_true, Bool.or_eq_true, decide_eq_true_eq]
        exact ⟨⟨rfl, by omega⟩, Or.inl rfl⟩
      rw [if_pos hesc]
      have hpb : process_backslash q pos = (pos + 2, [c]) := by
        refine process_backslash_two q pos c c hx1 ?_
        have h3 : (c = 92 ∨ c = 34) ∨ c = 36 := by simpa using h1
        rcases h3 with (h | h) | h
        · exact Or.inl ⟨h, h⟩
        · exact Or.inr (Or.inl ⟨h, h⟩)
        · exact Or.inr (Or.inr (Or.inl ⟨h, h⟩))
      rw [hpb]
      dsimp only
      rw [ih hmem' (pos + 2) (pos + 2) f
        (sa ++ substr q start (pos - start) ++ [c]) hd2 (Nat.le_refl _) (by omega)]
      simp [substr]
    · by_cases h2 : (c == 9) = true
      · have hc9 : c = 9 := by simpa using h2
        subst hc9
        have he : qenc1 9 = [92, 116] := rfl
        rw [he] at hd hf
        simp only [List.cons_append, List.nil_append] at hd
        simp only [List.length_cons, List.length_nil] at hf
        have hx0 : q.getD pos 0 = 92 := getD_of_drop hd
        have hlt : pos < q.length := lt_length_of_drop hd
        have hd1 : q.drop (pos + 1) = 116 :: (qenc t ++ [34]) := drop_succ_of_drop q pos hd
        have hx1 : q.getD (pos + 1) 0 = 116 := getD_of_drop hd1
        have hd2 : q.drop (pos + 2) = qenc t ++ [34] := by
          rw [show pos + 2 = pos + 1 + 1 from rfl]
          exact drop_succ_of_drop q (pos + 1) hd1
        have hlen : q.length - pos = (qenc t).length + 3 := by
          have hl2 := congrArg List.length hd
          rw [List.length_drop] at hl2
          simp at hl2
          omega
        obtain ⟨f, rfl⟩ : ∃ f, fuel = f + 1 := ⟨fuel - 1, by omega⟩
        rw [unquote_loop, if_pos hlt]
        have hqc : (q.getD pos 0 == 34 || q.getD pos 0 == 39) = false := by rw [hx0]; rfl
        rw [if_neg (cond_ne_true hqc)]
        have hesc : (q.getD pos 0 == 92 && pos < q.length - 1 &&
            ((34 : Nat) == 34 || ((34 : Nat) == 0 && q.getD (pos + 1) 0 == 60))) = true := by
          rw [hx0]
          simp only [Bool.and_eq_true, Bool.or_eq_true, decide_eq_true_eq]
          exact ⟨⟨rfl, by omega⟩, Or.inl rfl⟩
        rw [if_pos hesc]
        have hpb : process_backslash q pos = (pos + 2, [9]) :=
          process_backslash_two q pos 116 9 hx1 (by simp)
        rw [hpb]
        dsimp only
        rw [ih hmem' (pos + 2) (pos + 2) f
          (sa ++ substr q start (pos - start) ++ [9]) hd2 (Nat.le_refl _) (by omega)]
        simp [substr]
      · by_cases h3 : (c == 13) = true
        · have hc13 : c = 13 := by simpa using h3
          subst hc13
          have he : qenc1 13 = [92, 114] := rfl
          rw [he] at hd hf
          simp only [List.cons_append, List.nil_append] at hd
          simp only [List.length_cons, List.length_nil] at hf
          have hx0 : q.getD pos 0 = 92 := getD_of_drop hd
          have hlt : pos < q.length := lt_length_of_drop hd
          have hd1 : q.drop (pos + 1) = 114 :: (qenc t ++ [34]) := drop_succ_of_drop q pos hd
          have hx1 : q.getD (pos + 1) 0 = 114 := getD_of_drop hd1
          have hd2 : q.drop (pos + 2) = qenc t ++ [34] := by
            rw [show pos + 2 = pos + 1 + 1 from rfl]
            exact drop_succ_of_drop q (pos + 1) hd1
          have hlen : q.length - pos = (qenc t).length + 3 := by
            have hl2 := congrArg List.length hd
            rw [List.length_drop] at hl2
            simp at hl2
            omega
          obtain ⟨f, rfl⟩ : ∃ f, fuel = f + 1 := ⟨fuel - 1, by omega⟩
          rw [unquote_loop, if_pos hlt]
          have hqc : (q.getD pos 0 == 34 || q.getD pos 0 == 39) = false := by rw [hx0]; rfl
          rw [if_neg (cond_ne_true hqc)]
          have hesc : (q.getD pos 0 == 92 && pos < q.length - 1 &&
              ((34 : Nat) == 34 || ((34 : Nat) == 0 && q.getD (pos + 1) 0 == 60))) = true := by
            rw [hx0]
            simp only [Bool.and_eq_true, Bool.or_eq_true, decide_eq_true_eq]
            exact ⟨⟨rfl, by omega⟩, Or.inl rfl⟩
          rw [if_pos hesc]
          have hpb : process_backslash q pos = (pos + 2, [13]) :=
            process_backslash_two q pos 114 13 hx1 (by simp)
          rw [hpb]
          dsimp only
          rw [ih hmem' (pos + 2) (pos + 2) f
            (sa ++ substr q start (pos - start) ++ [13]) hd2 (Nat.le_refl _) (by omega)]
          simp [substr]
        · by_cases h4 : (c == 10) = true
          · have hc10 : c = 10 := by simpa using h4
            subst hc10
            have he : qenc1 10 = [92, 110] := rfl
            rw [he] at hd hf
            simp only [List.cons_append, List.nil_append] at hd
            simp only [List.length_cons, List.length_nil] at hf
            have hx0 : q.getD pos 0 = 92 := getD_of_drop hd
            have hlt : pos < q.length := lt_length_of_drop hd
            have hd1 : q.drop (pos + 1) = 110 :: (qenc t ++ [34]) := drop_succ_of_drop q pos hd
            have hx1 : q.getD (pos + 1) 0 = 110 := getD_of_drop hd1
            have hd2 : q.drop (pos + 2) = qenc t ++ [34] := by
              rw [show pos + 2 = pos + 1 + 1 from rfl]
              exact drop_succ_of_drop q (pos + 1) hd1
            have hlen : q.length - pos = (qenc t).length + 3 := by
              have hl2 := congrArg List.length hd
              rw [List.length_drop] at hl2
              simp at hl2
              omega
            obtain ⟨f, rfl⟩ : ∃ f, fuel = f + 1 := ⟨fuel - 1, by omega⟩
            rw [unquote_loop, if_pos hlt]
            have hqc : (q.getD pos 0 == 34 || q.getD pos 0 == 39) = false := by rw [hx0]; rfl
            rw [if_neg (cond_ne_true hqc)]
            have hesc : (q.getD pos 0 == 92 && pos < q.length - 1 &&
                ((34 : Nat) == 34 || ((34 : Nat) == 0 && q.getD (pos + 1) 0 == 60))) = true := by
              rw [hx0]
              simp only [Bool.and_eq_true, Bool.or_eq_true, decide_eq_true_eq]
              exact ⟨⟨rfl, by omega⟩, Or.inl rfl⟩
            rw [if_pos hesc]
            have hpb : process_backslash q pos = (pos + 2, [10]) :=
              process_backslash_two q pos 110 10 hx1 (by simp)
            rw [hpb]
            dsimp only
            rw [ih hmem' (pos + 2) (pos + 2) f
              (sa ++ substr q start (pos - start) ++ [10]) hd2 (Nat.le_refl _) (by omega)]
            simp [substr]
          · by_cases h5 : (c < 32 || 127 ≤ c) = true
            · have he : qenc1 c = [92, 48 + c / 64, 48 + c / 8 % 8, 48 + c % 8] := by
                rw [qenc1, if_neg h1, if_neg h2, if_neg h3, if_neg h4, if_pos h5]
              rw [he] at hd hf
              simp only [List.cons_append, List.nil_append] at hd
              simp only [List.length_cons, List.length_nil] at hf
              have hx0 : q.getD pos 0 = 92 := getD_of_drop hd
              have hlt : pos < q.length := lt_length_of_drop hd
              have hd1 : q.drop (pos + 1) = (48 + c / 64) :: ((48 + c / 8 % 8) :: ((48 + c % 8) :: (qenc t ++ [34]))) :=
                drop_succ_of_drop q pos hd
              have hx1 : q.getD (pos + 1) 0 = 48 + c / 64 := getD_of_drop hd1
              have hd2 : q.drop (pos + 1 + 1) = (48 + c / 8 % 8) :: ((48 + c % 8) :: (qenc t ++ [34])) :=
                drop_succ_of_drop q (pos + 1) hd1
              have hx2 : q.getD (pos + 1 + 1) 0 = 48 + c / 8 % 8 := getD_of_drop hd2
              have hd3 : q.drop (pos + 1 + 1 + 1) = (48 + c % 8) :: (qenc t ++ [34]) :=
                drop_succ_of_drop q (pos + 1 + 1) hd2
              have hx3 : q.getD (pos + 1 + 1 + 1) 0 = 48 + c % 8 := getD_of_drop hd3
              have hd4 : q.drop (pos + 4) = qenc t ++ [34] := by
                rw [show pos + 4 = pos + 1 + 1 + 1 + 1 from rfl]
                exact drop_succ_of_drop q (pos + 1 + 1 + 1) hd3
              have hlen : q.length - pos = (qenc t).length + 5 := by
                have hl2 := congrArg List.length hd
                rw [List.length_drop] at hl2
                simp at hl2
                omega
              obtain ⟨f, rfl⟩ : ∃ f, fuel = f + 1 := ⟨fuel - 1, by omega⟩
              rw [unquote_loop, if_pos hlt]
              have hqc : (q.getD pos 0 == 34 || q.getD pos 0 == 39) = false := by rw [hx0]; rfl
              rw [if_neg (cond_ne_true hqc)]
              have hesc : (q.getD pos 0 == 92 && pos < q.length - 1 &&
                  ((34 : Nat) == 34 || ((34 : Nat) == 0 && q.getD (pos + 1) 0 == 60))) = true := by
                rw [hx0]
                simp only [Bool.and_eq_true, Bool.or_eq_true, decide_eq_true_eq]
                exact ⟨⟨rfl, by omega⟩, Or.inl rfl⟩
              rw [if_pos hesc]
              have hpb : process_backslash q pos = (pos + 4, [c]) :=
                process_backslash_octal q pos c hc256 hx1 hx2 hx3 (by omega)
              rw [hpb]
              dsimp only
              rw [ih hmem' (pos + 4) (pos + 4) f
                (sa ++ substr q start (pos - start) ++ [c]) hd4 (Nat.le_refl _) (by omega)]
              simp [substr]
            · have he : qenc1 c = [c] := by
                rw [qenc1, if_neg h1, if_neg h2, if_neg h3, if_neg h4, if_neg h5]
              rw [he] at hd hf
              simp only [List.cons_append, List.nil_append] at hd
              simp only [List.length_cons, List.length_nil] at hf
              obtain ⟨⟨hne92, hne34⟩, hne36⟩ : (¬c = 92 ∧ ¬c = 34) ∧ ¬c = 36 := by
                simpa [not_or] using h1
              have hx0 : q.getD pos 0 = c := getD_of_drop hd
              have hlt : pos < q.length := lt_length_of_drop hd
              have hd1 : q.drop (pos + 1) = qenc t ++ [34] := drop_succ_of_drop q pos hd
              obtain ⟨f, rfl⟩ : ∃ f, fuel = f + 1 := ⟨fuel - 1, by omega⟩
              rw [unquote_loop, if_pos hlt]
              by_cases h39 : c = 39
              · subst h39
                have hqc : (q.getD pos 0 == 34 || q.getD pos 0 == 39) = true := by
                  rw [hx0]; rfl
                rw [if_pos hqc]
                rw [if_neg (show ¬((((34 : Nat)) == 0) = true) from by decide)]
                have hqq : ((34 : Nat) == q.getD pos 0) = false := by rw [hx0]; rfl
                rw [if_neg (cond_ne_true hqq)]
                rw [ih hmem' (pos + 1) start f sa hd1 (by omega) (by omega)]
                rw [substr_extend q start pos hst hlt, hx0]
                simp
              · have hqc : (q.getD pos 0 == 34 || q.getD pos 0 == 39) = false := by
                  rw [hx0]
                  simp only [Bool.or_eq_false_iff]
                  exact ⟨beq_eq_false_iff_ne.mpr hne34, beq_eq_false_iff_ne.mpr h39⟩
                rw [if_neg (cond_ne_true hqc)]
                have hb92 : (q.getD pos 0 == 92) = false := by
                  rw [hx0]
                  exact beq_eq_false_iff_ne.mpr hne92
                have hesc : (q.getD pos 0 == 92 && pos < q.length - 1 &&
                    ((34 : Nat) == 34 || ((34 : Nat) == 0 && q.getD (pos + 1) 0 == 60))) = false := by
                  rw [hb92, Bool.false_and, Bool.false_and]
                rw [if_neg (cond_ne_true hesc)]
                rw [ih hmem' (pos + 1) start f sa hd1 (by omega) (by omega)]
                rw [substr_extend q start pos hst hlt, hx0]
                simp

/-- `puc_loop` at or past the end of the input returns the pending
substring. -/
theorem puc_loop_stop (Q : List Nat) (fuel i left right : Nat) (closed : Bool) (sa : List Nat)
    (hi : Q.length ≤ i) (hfuel : 1 ≤ fuel) :
    puc_loop Q false fuel i left right closed sa = (sa ++ substr Q left (right - left), i) := by
  obtain ⟨f, rfl⟩ : ∃ f, fuel = f + 1 := ⟨fuel - 1, by omega⟩
  rw [puc_loop, if_neg (show ¬(i < Q.length) from by omega)]

/-- `partial_uncomment` leaves a quoted string unchanged: the leading
`"` is not whitespace or a comment, and the whole quoted span is skipped
in one step, so the copied span is the entire input. -/
theorem partial_uncomment_quoted (s0 : List Nat) (h256 : ∀ c ∈ s0, c < 256) :
    partial_uncomment (34 :: (qenc s0 ++ [34])) 0 false =
      (34 :: (qenc s0 ++ [34]), (34 :: (qenc s0 ++ [34])).length) := by
  have hpos : 0 < (34 :: (qenc s0 ++ [34])).length := by simp
  have hca : comment_at (34 :: (qenc s0 ++ [34])) 0 = false := by
    simp [comment_at]
  have hsp : cIsSpace ((34 :: (qenc s0 ++ [34])).getD 0 0) = false := by
    simp [cIsSpace]
  have hsdq : skip_double_quote (34 :: (qenc s0 ++ [34])) 0 = (34 :: (qenc s0 ++ [34])).length := by
    rw [skip_double_quote]
    refine sdq_loop_qenc _ s0 h256 (0 + 1) _ rfl ?_
    simp only [List.length_cons, List.length_append, List.length_nil]
    omega
  have hskip : puc_skip_initial (34 :: (qenc s0 ++ [34]))
      ((34 :: (qenc s0 ++ [34])).length + 1) 0 = 0 := by
    rw [puc_skip_initial, if_pos hpos, if_neg (cond_ne_true hca), if_neg (cond_ne_true hsp)]
  rw [partial_uncomment, hskip]
  rw [puc_loop, if_pos hpos, if_neg (cond_ne_true hsp), if_neg (cond_ne_true hca)]
  have hcm : ((34 :: (qenc s0 ++ [34])).getD 0 0 == 44 && false) = false := Bool.and_false _
  rw [if_neg (cond_ne_true hcm)]
  simp only [Bool.false_eq_true, if_false]
  rw [show ((34 :: (qenc s0 ++ [34])).getD 0 0) = 34 from rfl]
  rw [if_neg (show ¬(((34 : Nat) == 39) = true) from by decide)]
  rw [if_pos (show (((34 : Nat) == 34) = true) from rfl)]
  rw [hsdq]
  rw [puc_loop_stop _ ((34 :: (qenc s0 ++ [34])).length) ((34 :: (qenc s0 ++ [34])).length) 0
    ((34 :: (qenc s0 ++ [34])).length) false [] (Nat.le_refl _) (by omega)]
  simp [substr]

/-- C10: quote/unquote round trip.  For every byte string `s` (each
element a byte value below 256) -- including the empty string and strings
holding backslashes, quote characters, dollar signs, newlines, and
non-printable bytes -- unquoting the single-line quoted form returns `s`:
`cp_unquote (cp_quote s) = s`. -/
theorem cp_quote_unquote_round_trip (s0 : List Nat) (h256 : ∀ c ∈ s0, c < 256) :
    cp_unquote (cp_quote s0 false) = s0 := by
  have hpos : 0 < (34 :: (qenc s0 ++ [34])).length := by simp
  rw [cp_quote_qenc, cp_unquote, partial_uncomment_quoted s0 h256]
  dsimp only
  rw [unquote_loop, if_pos hpos]
  rw [show ((34 :: (qenc s0 ++ [34])).getD 0 0) = 34 from rfl]
  rw [if_pos (show (((34 : Nat) == 34 || (34 : Nat) == 39) = true) from rfl)]
  rw [if_pos (show (((0 : Nat) == 0) = true) from rfl)]
  rw [if_neg (show ¬((0 : Nat) < 0) from by omega)]
  rw [unquote_loop_qenc (34 :: (qenc s0 ++ [34])) s0 h256 (0 + 1) (0 + 1) ((34 :: (qenc s0 ++ [34])).length) [] rfl
    (Nat.le_refl _)
    (by simp only [List.length_cons, List.length_append, List.length_nil]; omega)]
  dsimp only
  rw [if_neg (cond_ne_true (beq_eq_false_iff_ne.mpr
    (show (34 :: (qenc s0 ++ [34])).length ≠ 0 from by simp)))]
  simp [substr]

/-- C10 witness: the round trip at a concrete string exercising a plain
letter, backslash, double quote, dollar, newline, CR, tab, a control
byte, a high byte and a single quote. -/
theorem cp_quote_unquote_round_trip_witness :
    (∀ c ∈ ([97, 92, 34, 36, 10, 13, 9, 7, 200, 39] : List Nat), c < 256) ∧
      cp_unquote (cp_quote [97, 92, 34, 36, 10, 13, 9, 7, 200, 39] false) =
        [97, 92, 34, 36, 10, 13, 9, 7, 200, 39] :=
  ⟨by decide, cp_quote_unquote_round_trip [97, 92, 34, 36, 10, 13, 9, 7, 200, 39] (by decide)⟩

end Confparse
